import Mathlib

/-!
Verification development for the sccache core (vvuk/sccache).

Shallow embedding of:
  * `src/compiler/gcc.rs` — the GCC-family argument classifier
    (`_parse_arguments`, the `ExpandIncludeFile` response-file iterator,
    and the extension dispatch at the head of `compile`);
  * `src/cache/cache.rs` — the artifact-bundle reader/writer
    (`CacheWrite`/`CacheRead`, over a model of the external zip crate);
  * `src/config.rs` — `parse_size` and the `compiler_dir` handling in
    `Config::create`;
  * `src/cmdline.rs` — the mode dispatch of `cmdline::parse`.

Modelling conventions: `OsString` values are modelled as `String`
(every token is valid UTF-8, so the `to_str` conversions always
succeed); the filesystem seen by response-file expansion is a function
`String → Option String` from joined paths to readable file contents
(`none` covers both absence and read errors); a Rust `panic!`/`unwrap`
failure is the explicit result `GccResult.panicked`; potential
divergence of cyclic response files is captured by a fuel parameter,
`none` meaning fuel exhaustion.
-/

/-- Length of a string in characters, as Rust `len()` on the tokens here. -/
def strLen (s : String) : Nat := s.data.length

/-- Model of Rust `starts_with`, over the character lists. -/
def strStartsWith (s pre : String) : Bool := List.isPrefixOf pre.data s.data

/-- Model of Rust `ends_with`, over the reversed character lists. -/
def strEndsWith (s suf : String) : Bool :=
  List.isPrefixOf suf.data.reverse s.data.reverse

/-- Drop the first `n` characters of a string (used to strip the `@` sigil). -/
def strDrop (s : String) (n : Nat) : String := String.mk (s.data.drop n)

/-- Model of `contents.contains('"') || contents.contains('\'')` in
`ExpandIncludeFile::next`. -/
def hasQuote (s : String) : Bool := s.data.any (fun c => c = '"' ∨ c = '\'')

/-- Accumulator-based whitespace splitter; mirrors Rust `split_whitespace`
(no empty tokens). -/
def wsSplitAux : List Char → List Char → List String
  | [], acc => if acc.isEmpty then [] else [String.mk acc.reverse]
  | c :: cs, acc =>
    if c.isWhitespace then
      if acc.isEmpty then wsSplitAux cs []
      else String.mk acc.reverse :: wsSplitAux cs []
    else wsSplitAux cs (c :: acc)

/-- Model of Rust `str::split_whitespace` collected to a list. -/
def splitWs (s : String) : List String := wsSplitAux s.data []

/-- Split a character list at a separator, keeping empty segments
(the behaviour of `splitOn` for a single-character separator). -/
def charSplit (sep : Char) : List Char → List Char → List String
  | [], acc => [String.mk acc.reverse]
  | c :: cs, acc =>
    if c = sep then String.mk acc.reverse :: charSplit sep cs []
    else charSplit sep cs (c :: acc)

/-- Model of `Path::file_name` for the paths appearing here: the last
nonempty `/`-separated component, with the `.`/`..` special cases. -/
def fileNameOf (s : String) : Option String :=
  match ((charSplit '/' s.data []).filter (fun c => ¬ c.data.isEmpty)).getLast? with
  | none => none
  | some n => if n = "." ∨ n = ".." then none else some n

/-- Model of `Path::extension().and_then(|e| e.to_str())`: the part of the
file name after the last dot, none if there is no dot or the name is a
lone leading-dot name. -/
def fileExtOf (s : String) : Option String :=
  match fileNameOf s with
  | none => none
  | some n =>
    let parts := charSplit '.' n.data []
    if parts.length ≤ 1 then none
    else if strStartsWith n "." ∧ parts.length = 2 then none
    else some (parts.getLastD "")

/-- Model of `Path::with_extension("dwo")` for the `-gsplit-dwarf` output. -/
def withExtDwo (p : String) : String :=
  match fileExtOf p with
  | some e => String.mk (p.data.take (strLen p - (strLen e + 1))) ++ ".dwo"
  | none => p ++ ".dwo"

/-- Model of `cwd.join(path)`: absolute paths are kept, otherwise the
working directory is prepended. -/
def joinPath (cwd p : String) : String :=
  if strStartsWith p "/" then p else cwd ++ "/" ++ p

/-- The filesystem visible to response-file expansion: joined path to
readable contents (`none` = missing or unreadable). -/
abbrev FSModel := String → Option String

/-- The fixed value-taking argument list `ARGS_WITH_VALUE` of gcc.rs. -/
def ARGS_WITH_VALUE : List String :=
  ["--param", "-A", "-D", "-F", "-G", "-I", "-L",
   "-U", "-V", "-Xassembler", "-Xlinker",
   "-Xpreprocessor", "-aux-info", "-b", "-idirafter",
   "-iframework", "-imacros", "-imultilib", "-include",
   "-install_name", "-iprefix", "-iquote", "-isysroot",
   "-isystem", "-iwithprefix", "-iwithprefixbefore",
   "-u"]

/-- Model of `argument_takes_value` in gcc.rs. -/
def argument_takes_value (arg : String) : Bool := decide (arg ∈ ARGS_WITH_VALUE)

/-- Model of the `ParsedArguments` struct (`compiler/c.rs`), with the output
map in insertion order. -/
structure ParsedArguments where
  input : String
  extension : String
  depfile : Option String
  outputs : List (String × String)
  preprocessor_args : List String
  common_args : List String
  msvc_show_includes : Bool
deriving DecidableEq, Repr

/-- Lookup in the outputs map of a `ParsedArguments`. -/
def lookupOut (l : List (String × String)) (k : String) : Option String :=
  (l.find? (fun p => p.1 == k)).map Prod.snd

/-- Outcome of `_parse_arguments`: the three `CompilerArguments` variants
plus the explicit panic of the `-x` value `unwrap`. -/
inductive GccResult where
  | ok (pa : ParsedArguments)
  | cannotCache (reason : String)
  | notCompilation
  | panicked
deriving DecidableEq, Repr

/-- The mutable locals of the `_parse_arguments` scanning loop. -/
structure ParseState where
  output_arg : Option String
  input_arg : Option String
  dep_target : Option String
  common_args : List String
  preprocessor_args : List String
  compilation : Bool
  split_dwarf : Bool
  need_explicit_dep_target : Bool
  force_input_type : Option String
deriving DecidableEq, Repr

/-- Initial scanner state (all the `let mut` initialisers). -/
def initSt : ParseState :=
  ⟨none, none, none, [], [], false, false, false, none⟩

/-- One `@`-expansion attempt, as in `ExpandIncludeFile::next`: `some toks`
when the token is an `@` file that exists, reads, and has no quote
characters; `none` when the token is delivered literally. -/
def expandArg (fs : FSModel) (cwd a : String) : Option (List String) :=
  if strStartsWith a "@" then
    match fs (joinPath cwd (strDrop a 1)) with
    | none => none
    | some contents =>
      if hasQuote contents then none else some (splitWs contents)
  else none

/-- Fueled model of `ExpandIncludeFile::next`: pops the stack, splicing
expanded response files in place; `none` is fuel exhaustion. -/
def nextArg (fs : FSModel) (cwd : String) : Nat → List String →
    Option (Option String × List String)
  | 0, _ => none
  | _ + 1, [] => some (none, [])
  | n + 1, a :: rest =>
    match expandArg fs cwd a with
    | some toks => nextArg fs cwd n (toks ++ rest)
    | none => some (some a, rest)

/-- Which flags consume the following token, beyond plain state updates. -/
inductive ConsumeKind where
  | ck_o | ck_val | ck_x | ck_mfq | ck_mt
deriving DecidableEq, Repr

/-- Immediate effect of one scanned token, before any value consumption. -/
inductive StepAct where
  | stop (r : GccResult)
  | setSt (st : ParseState)
  | consume (k : ConsumeKind)
deriving DecidableEq, Repr

/-- Is this token a flag in the sense of `arg.starts_with("-") && arg.len() > 1`. -/
def isFlag (t : String) : Bool := strStartsWith t "-" ∧ strLen t > 1

/-- The match over one popped argument in `_parse_arguments`, in source
order. Value-taking arms return `consume`; the fall-through handles the
generic flag / input-file logic. -/
def dispatch (st : ParseState) (s : String) : StepAct :=
  if s = "-c" then .setSt { st with compilation := true }
  else if s = "-o" then .consume .ck_o
  else if s = "-gsplit-dwarf" then
    .setSt { st with split_dwarf := true, common_args := st.common_args ++ [s] }
  else if argument_takes_value s then .consume .ck_val
  else if s = "-x" then .consume .ck_x
  else if s = "-MF" ∨ s = "-MQ" then .consume .ck_mfq
  else if s = "-MT" then .consume .ck_mt
  else if s = "-fcxx-modules" then .stop (.cannotCache "clang modules")
  else if s = "-fmodules" then .stop (.cannotCache "clang modules")
  else if s = "-fsyntax-only" then .stop (.cannotCache "-fsyntax-only")
  else if s = "-fprofile-use" then .stop (.cannotCache "pgo")
  else if strStartsWith s "@" then .stop (.cannotCache "@file")
  else if s = "-M" ∨ s = "-MM" ∨ s = "-MD" ∨ s = "-MMD" then
    .setSt { st with need_explicit_dep_target := true,
                     preprocessor_args := st.preprocessor_args ++ [s] }
  else if isFlag s then .setSt { st with common_args := st.common_args ++ [s] }
  else if st.input_arg.isSome ∨ s = "-" then
    .stop (.cannotCache "multiple input files")
  else .setSt { st with input_arg := some s }

/-- Apply the (possibly missing) consumed value for a value-taking flag;
`inr` is the early result (the `-x` `unwrap` panic). -/
def applyVal (st : ParseState) (s : String) (k : ConsumeKind)
    (v : Option String) : ParseState ⊕ GccResult :=
  match k, v with
  | .ck_o, v => .inl { st with output_arg := v }
  | .ck_val, none => .inl { st with common_args := st.common_args ++ [s] }
  | .ck_val, some v => .inl { st with common_args := st.common_args ++ [s, v] }
  | .ck_x, none => .inr .panicked
  | .ck_x, some v =>
      .inl { st with preprocessor_args := st.preprocessor_args ++ [s, v],
                     force_input_type := some v }
  | .ck_mfq, none => .inl { st with preprocessor_args := st.preprocessor_args ++ [s] }
  | .ck_mfq, some v =>
      .inl { st with preprocessor_args := st.preprocessor_args ++ [s, v] }
  | .ck_mt, v => .inl { st with dep_target := v }

/-- The `(input, extension)` resolution of `_parse_arguments` (lines
216-235): a forced `-x` type wins, otherwise the recognized-extension
match on the input path. -/
def extResOf (fit : Option String) (i : String) : Option String :=
  match fit with
  | some t => some t
  | none =>
    match fileExtOf i with
    | some e =>
      if e = "c" ∨ e = "cc" ∨ e = "cpp" ∨ e = "cxx" ∨ e = "c++"
      then some e else none
    | none => none

/-- The code after the scanning loop in `_parse_arguments` (lines 212-261):
compilation check, input/extension resolution, outputs and the
synthesized `-MT`. -/
def finalize (st : ParseState) : GccResult :=
  if st.compilation = false then .notCompilation
  else
    match st.input_arg with
    | none => .cannotCache "no input file"
    | some i =>
      match extResOf st.force_input_type i with
      | none => .cannotCache "unknown source extension"
      | some ext =>
        match st.output_arg with
        | none => .cannotCache "no output file"
        | some o =>
          GccResult.ok
            { input := i
              extension := ext
              depfile := none
              outputs := (if st.split_dwarf then [("dwo", withExtDwo o)] else [])
                          ++ [("obj", o)]
              preprocessor_args :=
                if st.need_explicit_dep_target then
                  st.preprocessor_args ++ ["-MT", st.dep_target.getD o]
                else st.preprocessor_args
              common_args := st.common_args
              msvc_show_includes := false }

/-- Fueled model of the whole `_parse_arguments`, response-file expansion
included; `none` is fuel exhaustion (cyclic response files). -/
def parseLoop (fs : FSModel) (cwd : String) : Nat → List String → ParseState →
    Option GccResult
  | 0, _, _ => none
  | n + 1, stack, st =>
    match nextArg fs cwd (n + 1) stack with
    | none => none
    | some (none, _) => some (finalize st)
    | some (some s, rest) =>
      match dispatch st s with
      | .stop r => some r
      | .setSt st' => parseLoop fs cwd n rest st'
      | .consume k =>
        match nextArg fs cwd n rest with
        | none => none
        | some (v, rest2) =>
          match applyVal st s k v with
          | .inl st' => parseLoop fs cwd n rest2 st'
          | .inr r => some r

/-- `parse_arguments` produces result `r` on `args` (for some fuel; the
fuel is monotone, so the result is unique when it exists). -/
def parses (fs : FSModel) (cwd : String) (args : List String) (r : GccResult) : Prop :=
  ∃ n, parseLoop fs cwd n args initSt = some (r)

/-- Outcome of the scanning loop alone: an early return or the final state. -/
inductive ScanOut where
  | early (r : GccResult)
  | done (st : ParseState)
deriving DecidableEq, Repr

/-- Pure (expansion-free) scanner: `_parse_arguments`'s loop on an
already-delivered token stream. -/
def scanAux : List String → ParseState → ScanOut
  | [], st => .done st
  | s :: rest, st =>
    match dispatch st s with
    | .stop r => .early r
    | .setSt st' => scanAux rest st'
    | .consume k =>
      match rest with
      | [] =>
        match applyVal st s k none with
        | .inl st' => scanAux [] st'
        | .inr r => .early r
      | v :: rest2 =>
        match applyVal st s k (some v) with
        | .inl st' => scanAux rest2 st'
        | .inr r => .early r

/-- Collapse a scan outcome through `finalize`. -/
def scanOutToRes : ScanOut → GccResult
  | .early r => r
  | .done st => finalize st

/-- The classifier on an already-expanded token stream. -/
def pureParse (args : List String) : GccResult :=
  scanOutToRes (scanAux args initSt)

/-- The `-x` language tag chosen at the head of `compile` in gcc.rs
(lines 308-316): `none` is the `Unexpected file extension` error arm. -/
def langFor : String → Option String
  | "c" => some "cpp-output"
  | "c++" => some "c++-cpp-output"
  | "cc" => some "c++-cpp-output"
  | "cpp" => some "c++-cpp-output"
  | "cxx" => some "c++-cpp-output"
  | _ => none

/-- What `compile` does before spawning the child: either an error future
or the command line it would run. -/
inductive CompileStep where
  | err (msg : String)
  | runs (cmdArgs : List String)
deriving DecidableEq, Repr

/-- Model of the prefix of `compile` in gcc.rs: the `obj` lookup, the
extension dispatch, and the assembled command line. -/
def compileStart (pa : ParsedArguments) : CompileStep :=
  match lookupOut pa.outputs "obj" with
  | none => .err "Missing object file output"
  | some obj =>
    match langFor pa.extension with
    | none => .err "Unexpected file extension"
    | some lang => .runs (["-c", "-x", lang, "-", "-o", obj] ++ pa.common_args)

/-! Claim-side helpers for the classifier: the surface shape of a token
sequence, mirroring which tokens the scanner pops versus consumes. -/

/-- The four flags rejected outright by the classifier. -/
def forbiddenTok (t : String) : Bool :=
  decide (t ∈ ["-fcxx-modules", "-fmodules", "-fsyntax-only", "-fprofile-use"])

/-- Tokens that consume the following token when popped standalone. -/
def isConsumer (t : String) : Bool :=
  t = "-o" ∨ argument_takes_value t ∨ t = "-x" ∨ t = "-MF" ∨ t = "-MQ" ∨ t = "-MT"

/-- The dependency-generation flags. -/
def isMFlag (t : String) : Bool := t = "-M" ∨ t = "-MM" ∨ t = "-MD" ∨ t = "-MMD"

/-- Does the token have one of the recognized source extensions. -/
def extGood (t : String) : Bool :=
  match fileExtOf t with
  | some e => e = "c" ∨ e = "cc" ∨ e = "cpp" ∨ e = "cxx" ∨ e = "c++"
  | none => false

/-- The tokens of a list that the scanner pops standalone (the consumed
values of value-taking flags are skipped). -/
def popScan : List String → List String
  | [] => []
  | t :: rest =>
    if isConsumer t then
      match rest with
      | [] => [t]
      | _ :: rest2 => t :: popScan rest2
    else t :: popScan rest

/-- The value of the last `-MT` popped standalone (overwritten on each
`-MT`, reset to `none` by a trailing bare `-MT`), as `dep_target` is. -/
def lastMTv : List String → Option String → Option String
  | [], acc => acc
  | t :: rest, acc =>
    if t = "-MT" then
      match rest with
      | [] => none
      | v :: rest2 => lastMTv rest2 (some v)
    else if isConsumer t then
      match rest with
      | [] => acc
      | _ :: rest2 => lastMTv rest2 acc
    else lastMTv rest acc

/-- The shape of a token sequence claimed cacheable: tracking whether `-c`
was seen, the single `-o` value, and the single recognized input; all
remaining popped tokens are plain non-forbidden flags and consumed values
are flags other than `-c`/`-o` (so no consumption swallows `-c`, `-o` or
the input); a trailing `-x` is excluded. Returns the claimed (output,
input) pair. -/
def c1scan : List String → Bool → Option String → Option String →
    Option (String × String)
  | [], c, o, i =>
    match c, o, i with
    | true, some p, some inp => some (p, inp)
    | _, _, _ => none
  | t :: rest, c, o, i =>
    if t = "-c" then c1scan rest true o i
    else if t = "-o" then
      match o, rest with
      | none, p :: rest2 => c1scan rest2 c (some p) i
      | _, _ => none
    else if isConsumer t then
      match rest with
      | [] => if t = "-x" then none else c1scan [] c o i
      | v :: rest2 =>
        if isFlag v ∧ forbiddenTok v = false ∧ v ≠ "-c" ∧ v ≠ "-o"
        then c1scan rest2 c o i else none
    else if isFlag t then
      if forbiddenTok t then none else c1scan rest c o i
    else
      if extGood t ∧ strStartsWith t "@" = false ∧ i = none
      then c1scan rest c o (some t) else none

/-! Model of the artifact bundle (`src/cache/cache.rs`).

Modelled from the spec: the zip container used by `CacheWrite`/`CacheRead`
comes from the external zip crate, which is not part of this repository;
per spec section 4.6 an Artifact Bundle is an ordered collection of
`(name, bytes, optional-unix-mode)` entries in a single compressed blob,
`put_object` appends an entry (storing the mode in the entry header when
present), `finish` returns the blob, `CacheRead::from` parses it back,
and `get_object` writes the named entry's bytes to the sink and returns
its stored mode. -/

/-- One bundle entry: name, byte contents, optional unix mode. -/
structure CEntry where
  name : String
  data : List Nat
  mode : Option Nat
deriving DecidableEq, Repr

/-- Modelled from the spec: a `CacheWrite` in progress is the ordered list
of entries written so far (`CacheWrite::new` is the empty list). -/
def cacheWriteNew : List CEntry := []

/-- Modelled from the spec: `CacheWrite::put_object` appends one named,
per-entry-compressed object with its optional mode. -/
def put_object (w : List CEntry) (name : String) (contents : List Nat)
    (mode : Option Nat) : List CEntry :=
  w ++ [⟨name, contents, mode⟩]

/-- Modelled from the spec: `CacheWrite::finish` yields the container blob,
identified with its entry list. -/
def cacheFinish (w : List CEntry) : List CEntry := w

/-- Modelled from the spec: `CacheRead::from` parses the blob back into the
archive. -/
def cacheReadFrom (blob : List CEntry) : List CEntry := blob

/-- Modelled from the spec: `CacheRead::get_object` finds the entry named
`name`, writes its bytes to the sink, and returns the stored mode;
rendered as returning the written bytes alongside the mode. -/
def get_object (r : List CEntry) (name : String) : Option (List Nat × Option Nat) :=
  (r.find? (fun e => e.name == name)).map (fun e => (e.data, e.mode))

/-! Model of `parse_size` and the `compiler_dir` handling (`src/config.rs`). -/

/-- Numeric value of a digit string (the regex capture `(\d+)`). -/
def digitsToNat (ds : List Char) : Nat :=
  ds.foldl (fun a c => 10 * a + (c.toNat - '0'.toNat)) 0

/-- Model of `usize::from_str` on a digit string: fails when the value
overflows the 64-bit word. -/
def usizeFromDigits (ds : List Char) : Option Nat :=
  if digitsToNat ds < 2 ^ 64 then some (digitsToNat ds) else none

/-- Multiplier for each size suffix. -/
def sizeSuffixMult (c : Char) : Nat :=
  if c = 'K' then 1024
  else if c = 'M' then 1024 * 1024
  else if c = 'G' then 1024 * 1024 * 1024
  else 1024 * 1024 * 1024 * 1024

/-- Model of `parse_size` in config.rs: the regex `^(\d+)([KMGT])$`,
`usize::from_str` on the digits, and the (wrapping machine-word)
multiplication by the suffix multiplier. -/
def parse_size (val : String) : Option Nat :=
  let cs := val.data
  match cs.getLast? with
  | none => none
  | some c =>
    let ds := cs.dropLast
    if (¬ ds.isEmpty) ∧ ds.all Char.isDigit ∧
        (c = 'K' ∨ c = 'M' ∨ c = 'G' ∨ c = 'T') then
      match usizeFromDigits ds with
      | none => none
      | some n => some (sizeSuffixMult c * n % 2 ^ 64)
    else none

/-- Model of the `compiler_dir` branch of `Config::create` (lines 221-227):
the trailing-separator guard and the `+ "."` append. -/
def configCompilerDir : Option String → Option String
  | none => none
  | some compiler_dir =>
    if (¬ strEndsWith compiler_dir "/") ∨ (¬ strEndsWith compiler_dir "\\") then
      some (compiler_dir ++ ".")
    else some compiler_dir

/-! Model of the mode dispatch in `cmdline::parse` (`src/cmdline.rs`,
lines 152-199). The clap matcher is abstracted to the five mode flags it
is queried for plus the trailing `cmd` values; the
`SCCACHE_START_SERVER` environment marker is a boolean input. -/

/-- Output format for statistics. -/
inductive StatsFormat where
  | text
  | json
deriving DecidableEq, Repr

/-- The queries made against the clap matches. -/
structure CmdMatches where
  show_stats : Bool
  start_server : Bool
  stop_server : Bool
  zero_stats : Bool
  cmd : Option (List String)
deriving DecidableEq, Repr

/-- The `Command` enum of cmdline.rs (compile keeps only exe and args). -/
inductive Command where
  | showStats (fmt : StatsFormat)
  | zeroStats
  | internalStartServer
  | startServer
  | stopServer
  | compile (exe : String) (cmdline : List String)
deriving DecidableEq, Repr

/-- Result of `cmdline::parse`: a command or a `bail!` usage error. -/
inductive CmdResult where
  | ok (c : Command)
  | error (msg : String)
deriving DecidableEq, Repr

/-- Model of the tail of `cmdline::parse`: the too-many-commands check
(note: `zero_stats` is absent from the counted array, as in the source)
and the mode dispatch. -/
def cmdlineParse (internal_start_server : Bool) (m : CmdMatches)
    (fmt : StatsFormat) : CmdResult :=
  let count :=
    [internal_start_server, m.show_stats, m.start_server, m.stop_server,
     m.cmd.isSome].foldl (fun acc x => acc + (if x then 1 else 0)) 0
  if count > 1 then .error "Too many commands specified"
  else if internal_start_server then .ok .internalStartServer
  else if m.show_stats then .ok (.showStats fmt)
  else if m.start_server then .ok .startServer
  else if m.stop_server then .ok .stopServer
  else if m.zero_stats then .ok .zeroStats
  else
    match m.cmd with
    | some (exe :: rest) => .ok (.compile exe rest)
    | some [] => .error "No compile command"
    | none => .error "No command specified"

/-! Lemmas and claim theorems. -/

/-- Relates a pending-expansion stack `C ++ [tok] ++ B` to its expanded
form `C ++ toks ++ B`; once the `@`-token has been popped and spliced,
both runs walk the same stack (the `eq` disjunct). -/
def StackRel (tok : String) (toks B S1 S2 : List String) : Prop :=
  (∃ C, S1 = C ++ (tok :: B) ∧ S2 = C ++ (toks ++ B)) ∨ S1 = S2

/-- A one-file filesystem for concrete response-file runs: `/w/rsp`
holds `-c foo.c`. -/
def gccC3fs : FSModel :=
  fun p => if p = "/w/rsp" then some "-c foo.c" else none

theorem expandArg_not_at (fs : FSModel) (cwd a : String)
    (h : strStartsWith a "@" = false) : expandArg fs cwd a = none := by
  unfold expandArg
  rw [h]
  simp

theorem nextArg_cons_lit (fs : FSModel) (cwd a : String) (rest : List String)
    (n : Nat) (h : strStartsWith a "@" = false) :
    nextArg fs cwd (n + 1) (a :: rest) = some (some a, rest) := by
  rw [nextArg, expandArg_not_at fs cwd a h]

theorem nextArg_mono (fs : FSModel) (cwd : String) :
    ∀ n m s r, nextArg fs cwd n s = some r → n ≤ m → nextArg fs cwd m s = some r := by
  intro n
  induction n with
  | zero => intro m s r h; exact absurd h (by simp [nextArg])
  | succ n ih =>
    intro m s r h hle
    obtain ⟨m', rfl⟩ : ∃ m', m = m' + 1 := ⟨m - 1, by omega⟩
    cases s with
    | nil => exact h
    | cons a rest =>
      cases hE : expandArg fs cwd a with
      | none =>
        rw [nextArg, hE] at h
        rw [nextArg, hE]
        exact h
      | some toks =>
        rw [nextArg, hE] at h
        rw [nextArg, hE]
        exact ih m' _ _ h (by omega)

theorem parseLoop_mono (fs : FSModel) (cwd : String) :
    ∀ n m args st r, parseLoop fs cwd n args st = some r → n ≤ m →
      parseLoop fs cwd m args st = some r := by
  intro n
  induction n with
  | zero => intro m args st r h; exact absurd h (by simp [parseLoop])
  | succ n ih =>
    intro m args st r h hle
    obtain ⟨m', rfl⟩ : ∃ m', m = m' + 1 := ⟨m - 1, by omega⟩
    rw [parseLoop] at h
    rw [parseLoop]
    cases hnx : nextArg fs cwd (n + 1) args with
    | none => rw [hnx] at h; exact absurd h (by simp)
    | some pr =>
      obtain ⟨oa, rest⟩ := pr
      rw [hnx] at h
      rw [nextArg_mono fs cwd (n + 1) (m' + 1) args (oa, rest) hnx (by omega)]
      cases oa with
      | none => exact h
      | some s =>
        dsimp only at h ⊢
        cases hd : dispatch st s with
        | stop r' =>
          rw [hd] at h
          exact h
        | setSt st' =>
          rw [hd] at h
          exact ih m' _ _ _ h (by omega)
        | consume k =>
          rw [hd] at h
          dsimp only at h ⊢
          cases hnx2 : nextArg fs cwd n rest with
          | none => rw [hnx2] at h; exact absurd h (by simp)
          | some pr2 =>
            obtain ⟨v, rest2⟩ := pr2
            rw [hnx2] at h
            rw [nextArg_mono fs cwd n m' rest (v, rest2) hnx2 (by omega)]
            dsimp only at h ⊢
            cases hav : applyVal st s k v with
            | inl st' =>
              rw [hav] at h
              exact ih m' _ _ _ h (by omega)
            | inr r' =>
              rw [hav] at h
              exact h

theorem parses_unique (fs : FSModel) (cwd : String) (args : List String)
    (r r' : GccResult) (h : parses fs cwd args r) (h' : parses fs cwd args r') :
    r = r' := by
  obtain ⟨n, hn⟩ := h
  obtain ⟨m, hm⟩ := h'
  have h1 := parseLoop_mono fs cwd n (max n m) args initSt r hn (le_max_left n m)
  have h2 := parseLoop_mono fs cwd m (max n m) args initSt r' hm (le_max_right n m)
  rw [h1] at h2
  exact Option.some.inj h2

theorem parseLoop_eq_scanAux (fs : FSModel) (cwd : String) :
    ∀ (N : Nat) (args : List String) (st : ParseState) (n : Nat),
      args.length < N → (∀ t ∈ args, strStartsWith t "@" = false) →
      args.length + 1 ≤ n →
      parseLoop fs cwd n args st = some (scanOutToRes (scanAux args st)) := by
  intro N
  induction N with
  | zero => intro args st n h; omega
  | succ N ih =>
    intro args st n hlen hfree hn
    obtain ⟨n', rfl⟩ : ∃ n', n = n' + 1 := ⟨n - 1, by omega⟩
    cases args with
    | nil => simp [parseLoop, nextArg, scanAux, scanOutToRes]
    | cons t rest =>
      have hfreet : strStartsWith t "@" = false := hfree t (by simp)
      have hfreer : ∀ x ∈ rest, strStartsWith x "@" = false :=
        fun x hx => hfree x (by simp [hx])
      have hlen' : rest.length < N := by simp at hlen; omega
      rw [parseLoop]
      rw [nextArg_cons_lit fs cwd t rest n' hfreet]
      rw [scanAux]
      try dsimp only
      rcases hd : dispatch st t with r | st1 | k
      · simp [scanOutToRes]
      · try dsimp only
        exact ih rest st1 n' hlen' hfreer (by simp at hn ⊢; omega)
      · try dsimp only
        cases rest with
        | nil =>
          obtain ⟨n'', rfl⟩ : ∃ m, n' = m + 1 := ⟨n' - 1, by simp at hn; omega⟩
          simp only [nextArg]
          try dsimp only
          rcases hav : applyVal st t k none with st1 | r
          · try dsimp only
            exact ih [] st1 (n'' + 1) (by simpa using hlen') (by simp) (by simp)
          · simp [scanOutToRes]
        | cons v rest2 =>
          obtain ⟨n'', rfl⟩ : ∃ m, n' = m + 1 := ⟨n' - 1, by simp at hn; omega⟩
          rw [nextArg_cons_lit fs cwd v rest2 n'' (hfreer v (by simp))]
          try dsimp only
          rcases hav : applyVal st t k (some v) with st1 | r
          · try dsimp only
            refine ih rest2 st1 (n'' + 1) (by simp at hlen'; omega)
              (fun x hx => hfreer x (by simp [hx])) (by simp at hn; omega)
          · simp [scanOutToRes]

/-- Exhaustive enumeration of the arms of `dispatch`, with the governing
token facts recorded; every later lemma about the scanner cases on this. -/
theorem dispatch_spec (st : ParseState) (s : String) :
    (s = "-c" ∧ dispatch st s = .setSt { st with compilation := true }) ∨
    (s = "-o" ∧ dispatch st s = .consume .ck_o) ∨
    (s = "-gsplit-dwarf" ∧ dispatch st s =
      .setSt { st with split_dwarf := true, common_args := st.common_args ++ [s] }) ∨
    (argument_takes_value s = true ∧ dispatch st s = .consume .ck_val) ∨
    (s = "-x" ∧ dispatch st s = .consume .ck_x) ∨
    ((s = "-MF" ∨ s = "-MQ") ∧ dispatch st s = .consume .ck_mfq) ∨
    (s = "-MT" ∧ dispatch st s = .consume .ck_mt) ∨
    (forbiddenTok s = true ∧
      (dispatch st s = .stop (.cannotCache "clang modules") ∨
       dispatch st s = .stop (.cannotCache "-fsyntax-only") ∨
       dispatch st s = .stop (.cannotCache "pgo"))) ∨
    (strStartsWith s "@" = true ∧ dispatch st s = .stop (.cannotCache "@file")) ∨
    (isMFlag s = true ∧ dispatch st s =
      .setSt { st with need_explicit_dep_target := true,
                       preprocessor_args := st.preprocessor_args ++ [s] }) ∨
    (isFlag s = true ∧ s ≠ "-c" ∧ isConsumer s = false ∧ forbiddenTok s = false ∧
      isMFlag s = false ∧ s ≠ "-gsplit-dwarf" ∧
      dispatch st s = .setSt { st with common_args := st.common_args ++ [s] }) ∨
    ((st.input_arg.isSome = true ∨ s = "-") ∧ isFlag s = false ∧
      strStartsWith s "@" = false ∧
      dispatch st s = .stop (.cannotCache "multiple input files")) ∨
    (isFlag s = false ∧ strStartsWith s "@" = false ∧ s ≠ "-" ∧
      st.input_arg = none ∧ isConsumer s = false ∧ s ≠ "-c" ∧
      forbiddenTok s = false ∧ isMFlag s = false ∧
      dispatch st s = .setSt { st with input_arg := some s }) := by
  by_cases h1 : s = "-c"
  · exact Or.inl ⟨h1, by unfold dispatch; rw [if_pos h1]⟩
  by_cases h2 : s = "-o"
  · exact Or.inr (Or.inl ⟨h2, by unfold dispatch; rw [if_neg h1, if_pos h2]⟩)
  by_cases h3 : s = "-gsplit-dwarf"
  · exact Or.inr (Or.inr (Or.inl ⟨h3, by
      unfold dispatch; rw [if_neg h1, if_neg h2, if_pos h3]⟩))
  by_cases h4 : argument_takes_value s = true
  · exact Or.inr (Or.inr (Or.inr (Or.inl ⟨h4, by
      unfold dispatch; rw [if_neg h1, if_neg h2, if_neg h3, if_pos h4]⟩)))
  by_cases h5 : s = "-x"
  · exact Or.inr (Or.inr (Or.inr (Or.inr (Or.inl ⟨h5, by
      unfold dispatch; rw [if_neg h1, if_neg h2, if_neg h3, if_neg h4, if_pos h5]⟩))))
  by_cases h6 : s = "-MF" ∨ s = "-MQ"
  · exact Or.inr (Or.inr (Or.inr (Or.inr (Or.inr (Or.inl ⟨h6, by
      unfold dispatch
      rw [if_neg h1, if_neg h2, if_neg h3, if_neg h4, if_neg h5, if_pos h6]⟩)))))
  by_cases h7 : s = "-MT"
  · exact Or.inr (Or.inr (Or.inr (Or.inr (Or.inr (Or.inr (Or.inl ⟨h7, by
      unfold dispatch
      rw [if_neg h1, if_neg h2, if_neg h3, if_neg h4, if_neg h5, if_neg h6,
        if_pos h7]⟩))))))
  by_cases h8 : s = "-fcxx-modules"
  · refine Or.inr (Or.inr (Or.inr (Or.inr (Or.inr (Or.inr (Or.inr (Or.inl
      ⟨by simp [forbiddenTok, h8], Or.inl ?_⟩)))))))
    unfold dispatch
    rw [if_neg h1, if_neg h2, if_neg h3, if_neg h4, if_neg h5, if_neg h6,
      if_neg h7, if_pos h8]
  by_cases h9 : s = "-fmodules"
  · refine Or.inr (Or.inr (Or.inr (Or.inr (Or.inr (Or.inr (Or.inr (Or.inl
      ⟨by simp [forbiddenTok, h9], Or.inl ?_⟩)))))))
    unfold dispatch
    rw [if_neg h1, if_neg h2, if_neg h3, if_neg h4, if_neg h5, if_neg h6,
      if_neg h7, if_neg h8, if_pos h9]
  by_cases h10 : s = "-fsyntax-only"
  · refine Or.inr (Or.inr (Or.inr (Or.inr (Or.inr (Or.inr (Or.inr (Or.inl
      ⟨by simp [forbiddenTok, h10], Or.inr (Or.inl ?_)⟩)))))))
    unfold dispatch
    rw [if_neg h1, if_neg h2, if_neg h3, if_neg h4, if_neg h5, if_neg h6,
      if_neg h7, if_neg h8, if_neg h9, if_pos h10]
  by_cases h11 : s = "-fprofile-use"
  · refine Or.inr (Or.inr (Or.inr (Or.inr (Or.inr (Or.inr (Or.inr (Or.inl
      ⟨by simp [forbiddenTok, h11], Or.inr (Or.inr ?_)⟩)))))))
    unfold dispatch
    rw [if_neg h1, if_neg h2, if_neg h3, if_neg h4, if_neg h5, if_neg h6,
      if_neg h7, if_neg h8, if_neg h9, if_neg h10, if_pos h11]
  by_cases h12 : strStartsWith s "@" = true
  · refine Or.inr (Or.inr (Or.inr (Or.inr (Or.inr (Or.inr (Or.inr (Or.inr (Or.inl
      ⟨h12, ?_⟩))))))))
    unfold dispatch
    rw [if_neg h1, if_neg h2, if_neg h3, if_neg h4, if_neg h5, if_neg h6,
      if_neg h7, if_neg h8, if_neg h9, if_neg h10, if_neg h11, if_pos h12]
  by_cases h13 : s = "-M" ∨ s = "-MM" ∨ s = "-MD" ∨ s = "-MMD"
  · refine Or.inr (Or.inr (Or.inr (Or.inr (Or.inr (Or.inr (Or.inr (Or.inr (Or.inr
      (Or.inl ⟨by simp [isMFlag]; tauto, ?_⟩)))))))))
    unfold dispatch
    rw [if_neg h1, if_neg h2, if_neg h3, if_neg h4, if_neg h5, if_neg h6,
      if_neg h7, if_neg h8, if_neg h9, if_neg h10, if_neg h11, if_neg h12,
      if_pos h13]
  have hforb : forbiddenTok s = false := by
    simp [forbiddenTok, h8, h9, h10, h11]
  have hmfl : isMFlag s = false := by
    simp [isMFlag]
    tauto
  by_cases h14 : isFlag s = true
  · have hcons : isConsumer s = false := by
      simp [isConsumer, h2, h4, h5, h7]
      tauto
    refine Or.inr (Or.inr (Or.inr (Or.inr (Or.inr (Or.inr (Or.inr (Or.inr (Or.inr
      (Or.inr (Or.inl ⟨h14, h1, hcons, hforb, hmfl, h3, ?_⟩))))))))))
    unfold dispatch
    rw [if_neg h1, if_neg h2, if_neg h3, if_neg h4, if_neg h5, if_neg h6,
      if_neg h7, if_neg h8, if_neg h9, if_neg h10, if_neg h11, if_neg h12,
      if_neg h13, if_pos h14]
  by_cases h15 : st.input_arg.isSome = true ∨ s = "-"
  · refine Or.inr (Or.inr (Or.inr (Or.inr (Or.inr (Or.inr (Or.inr (Or.inr (Or.inr
      (Or.inr (Or.inr (Or.inl ⟨h15, by simpa using h14, by simpa using h12, ?_⟩)))))))))))
    unfold dispatch
    rw [if_neg h1, if_neg h2, if_neg h3, if_neg h4, if_neg h5, if_neg h6,
      if_neg h7, if_neg h8, if_neg h9, if_neg h10, if_neg h11, if_neg h12,
      if_neg h13, if_neg h14, if_pos h15]
  · have hnotor := not_or.mp h15
    have hcons : isConsumer s = false := by
      simp [isConsumer, h2, h4, h5, h7]
      tauto
    refine Or.inr (Or.inr (Or.inr (Or.inr (Or.inr (Or.inr (Or.inr (Or.inr (Or.inr
      (Or.inr (Or.inr (Or.inr ⟨by simpa using h14, by simpa using h12,
        hnotor.2, Option.not_isSome_iff_eq_none.mp (by simpa using hnotor.1),
        hcons, h1, hforb, hmfl, ?_⟩)))))))))))
    unfold dispatch
    rw [if_neg h1, if_neg h2, if_neg h3, if_neg h4, if_neg h5, if_neg h6,
      if_neg h7, if_neg h8, if_neg h9, if_neg h10, if_neg h11, if_neg h12,
      if_neg h13, if_neg h14, if_neg h15]

theorem dispatch_stop_reasons (st : ParseState) (s : String) (r : GccResult)
    (h : dispatch st s = .stop r) :
    r = .cannotCache "clang modules" ∨ r = .cannotCache "-fsyntax-only" ∨
    r = .cannotCache "pgo" ∨ r = .cannotCache "@file" ∨
    r = .cannotCache "multiple input files" := by
  rcases dispatch_spec st s with ⟨-, hd⟩ | ⟨-, hd⟩ | ⟨-, hd⟩ | ⟨-, hd⟩ | ⟨-, hd⟩ |
    ⟨-, hd⟩ | ⟨-, hd⟩ | ⟨-, hd | hd | hd⟩ | ⟨-, hd⟩ | ⟨-, hd⟩ |
    ⟨-, -, -, -, -, -, hd⟩ | ⟨-, -, -, hd⟩ | ⟨-, -, -, -, -, -, -, -, hd⟩ <;>
    rw [hd] at h <;> cases h <;> tauto

theorem dispatch_setSt_comp (st st' : ParseState) (s : String)
    (h : dispatch st s = .setSt st') (hs : s ≠ "-c") :
    st'.compilation = st.compilation := by
  rcases dispatch_spec st s with ⟨hc, hd⟩ | ⟨-, hd⟩ | ⟨-, hd⟩ | ⟨-, hd⟩ | ⟨-, hd⟩ |
    ⟨-, hd⟩ | ⟨-, hd⟩ | ⟨-, hd | hd | hd⟩ | ⟨-, hd⟩ | ⟨-, hd⟩ |
    ⟨-, -, -, -, -, -, hd⟩ | ⟨-, -, -, hd⟩ | ⟨-, -, -, -, -, -, -, -, hd⟩ <;>
    rw [hd] at h <;> cases h <;> first | rfl | exact absurd hc hs

theorem applyVal_inl_comp (st st' : ParseState) (s : String) (k : ConsumeKind)
    (v : Option String) (h : applyVal st s k v = .inl st') :
    st'.compilation = st.compilation := by
  cases k <;> cases v <;> simp only [applyVal] at h <;> cases h <;> rfl

theorem applyVal_inr_panic (st : ParseState) (s : String) (k : ConsumeKind)
    (v : Option String) (h : applyVal st s k v = .inr r) : r = .panicked := by
  cases k <;> cases v <;> simp only [applyVal] at h <;> cases h <;> rfl

theorem scanAux_no_c : ∀ (N : Nat) (args : List String) (st : ParseState),
    args.length < N → "-c" ∉ args → st.compilation = false →
    ∀ pa, scanOutToRes (scanAux args st) ≠ .ok pa := by
  intro N
  induction N with
  | zero => intro args st h; omega
  | succ N ih =>
    intro args st hlen hc hcomp pa
    cases args with
    | nil =>
      simp only [scanAux, scanOutToRes]
      unfold finalize
      rw [if_pos hcomp]
      simp
    | cons t rest =>
      have hct : t ≠ "-c" := fun heq => hc (heq ▸ List.mem_cons_self t rest)
      have hcr : "-c" ∉ rest := fun hm => hc (List.mem_cons_of_mem t hm)
      have hlen' : rest.length < N := by simp at hlen; omega
      rw [scanAux]
      rcases hd : dispatch st t with r | st1 | k
      · intro habs
        simp only [scanOutToRes] at habs
        rcases dispatch_stop_reasons st t r hd with h | h | h | h | h <;>
          simp [h] at habs
      · exact ih rest st1 hlen' hcr
          ((dispatch_setSt_comp st st1 t hd hct).trans hcomp) pa
      · cases rest with
        | nil =>
          dsimp only
          rcases hav : applyVal st t k none with st1 | r
          · exact ih [] st1 (by omega) (by simp) ((applyVal_inl_comp st st1 t k none hav).trans hcomp) pa
          · rw [applyVal_inr_panic st t k none hav]
            simp [scanOutToRes]
        | cons v rest2 =>
          dsimp only
          rcases hav : applyVal st t k (some v) with st1 | r
          · exact ih rest2 st1 (by simp at hlen'; omega)
              (fun hm => hcr (List.mem_cons_of_mem v hm))
              ((applyVal_inl_comp st st1 t k (some v) hav).trans hcomp) pa
          · rw [applyVal_inr_panic st t k (some v) hav]
            simp [scanOutToRes]

theorem lookupOut_obj (sd : Bool) (dw o : String) :
    lookupOut ((if sd then [("dwo", dw)] else []) ++ [("obj", o)]) "obj" = some o := by
  cases sd <;> simp [lookupOut, List.find?]

theorem finalize_ok (st : ParseState) (pa : ParsedArguments)
    (h : finalize st = .ok pa) :
    ∃ i ext o, st.input_arg = some i ∧ st.output_arg = some o ∧
      st.compilation = true ∧ extResOf st.force_input_type i = some ext ∧
      pa = ⟨i, ext, none,
            (if st.split_dwarf then [("dwo", withExtDwo o)] else []) ++ [("obj", o)],
            (if st.need_explicit_dep_target then
               st.preprocessor_args ++ ["-MT", st.dep_target.getD o]
             else st.preprocessor_args),
            st.common_args, false⟩ := by
  unfold finalize at h
  by_cases hc : st.compilation = false
  · rw [if_pos hc] at h; simp at h
  · rw [if_neg hc] at h
    cases hi : st.input_arg with
    | none => rw [hi] at h; simp at h
    | some i =>
      rw [hi] at h
      dsimp only at h
      cases he : extResOf st.force_input_type i with
      | none => rw [he] at h; simp at h
      | some ext =>
        rw [he] at h
        dsimp only at h
        cases ho : st.output_arg with
        | none => rw [ho] at h; simp at h
        | some o =>
          rw [ho] at h
          dsimp only at h
          exact ⟨i, ext, o, rfl, rfl, by revert hc; cases st.compilation <;> simp,
            he, (GccResult.ok.inj h).symm⟩

theorem scanAux_ok_done : ∀ (N : Nat) (args : List String) (st : ParseState)
    (pa : ParsedArguments), args.length < N →
    scanOutToRes (scanAux args st) = .ok pa →
    ∃ st', scanAux args st = .done st' ∧ finalize st' = .ok pa := by
  intro N
  induction N with
  | zero => intro args st pa h; omega
  | succ N ih =>
    intro args st pa hlen hok
    cases args with
    | nil => exact ⟨st, rfl, hok⟩
    | cons t rest =>
      have hlen' : rest.length < N := by simp at hlen; omega
      rw [scanAux] at hok ⊢
      rcases hd : dispatch st t with r | st1 | k
      · rw [hd] at hok
        simp only [scanOutToRes] at hok
        rcases dispatch_stop_reasons st t r hd with h | h | h | h | h <;>
          simp [h] at hok
      · rw [hd] at hok
        exact ih rest st1 pa hlen' hok
      · rw [hd] at hok
        cases rest with
        | nil =>
          dsimp only at hok ⊢
          rcases hav : applyVal st t k none with st1 | r
          · rw [hav] at hok
            exact ih [] st1 pa (by omega) hok
          · rw [hav, applyVal_inr_panic st t k none hav] at hok
            simp [scanOutToRes] at hok
        | cons v rest2 =>
          dsimp only at hok ⊢
          rcases hav : applyVal st t k (some v) with st1 | r
          · rw [hav] at hok
            exact ih rest2 st1 pa (by simp at hlen'; omega) hok
          · rw [hav, applyVal_inr_panic st t k (some v) hav] at hok
            simp [scanOutToRes] at hok

/-- C9: forcing the language with `-x <lang>` for a `<lang>` outside the
recognized set still classifies as `Ok` (the unknown-extension check is
bypassed by the forced type), yet `compile` on such a `ParsedArguments`
fails up front with `Unexpected file extension` instead of spawning the
compiler, so the accepted invocation can never complete the pipeline. -/
theorem gcc_c9 :
    (∃ pa, pureParse ["-x", "zig", "-c", "a.zz", "-o", "a.o"] = .ok pa ∧
      pa.extension = "zig" ∧ langFor pa.extension = none) ∧
    (∀ args pa, pureParse args = .ok pa → langFor pa.extension = none →
      compileStart pa = .err "Unexpected file extension") := by
  constructor
  · exact ⟨⟨"a.zz", "zig", none, [("obj", "a.o")], ["-x", "zig"], [], false⟩,
      by decide, by decide, by decide⟩
  · intro args pa hok hlang
    obtain ⟨st', hdone, hfin⟩ :=
      scanAux_ok_done (args.length + 1) args initSt pa (by omega) hok
    obtain ⟨i, ext, o, hi, ho, hc, he, hpa⟩ := finalize_ok st' pa hfin
    have hobj : lookupOut pa.outputs "obj" = some o := by
      rw [hpa]
      exact lookupOut_obj st'.split_dwarf (withExtDwo o) o
    unfold compileStart
    rw [hobj]
    dsimp only
    rw [hlang]

/-- C9 witness: the concrete `-x zig` invocation is accepted by the
classifier and rejected by the compile step. -/
theorem gcc_c9_witness :
    compileStart ⟨"a.zz", "zig", none, [("obj", "a.o")], ["-x", "zig"], [], false⟩ =
      .err "Unexpected file extension" :=
  gcc_c9.2 ["-x", "zig", "-c", "a.zz", "-o", "a.o"]
    ⟨"a.zz", "zig", none, [("obj", "a.o")], ["-x", "zig"], [], false⟩
    (by decide) (by decide)

theorem dispatch_x_eval (st : ParseState) : dispatch st "-x" = .consume .ck_x := by
  unfold dispatch
  rw [if_neg (by decide), if_neg (by decide), if_neg (by decide),
    if_neg (by decide), if_pos rfl]

/-- C6 counterexample: an argument list whose final token is `-x` on which
the classifier does not panic: the preceding `-o` consumes the `-x` as
its value and the result is `NotCompilation`. -/
theorem gcc_c6_cx :
    parses (fun _ => none) "" ["-o", "-x"] .notCompilation ∧
    ¬ parses (fun _ => none) "" ["-o", "-x"] .panicked := by
  constructor
  · exact ⟨4, by decide⟩
  · intro h
    have := parses_unique (fun _ => none) "" ["-o", "-x"] .panicked
      .notCompilation h ⟨4, by decide⟩
    simp at this

/-- C6 (amended): whenever the scanner pops `-x` standalone as the last
remaining argument — in particular on any list ending in a standalone
`-x` — the `unwrap` of the missing value panics: for every sufficient
fuel, the model yields the panic result from any scanner state. -/
theorem gcc_c6 (fs : FSModel) (cwd : String) (st : ParseState) (n : Nat)
    (hn : 2 ≤ n) : parseLoop fs cwd n ["-x"] st = some .panicked := by
  obtain ⟨m, rfl⟩ : ∃ m, n = m + 2 := ⟨n - 2, by omega⟩
  rw [parseLoop]
  rw [nextArg_cons_lit fs cwd "-x" [] (m + 1) (by decide)]
  dsimp only
  rw [dispatch_x_eval st]
  dsimp only
  rw [show nextArg fs cwd (m + 1) [] = some (none, []) from rfl]
  rfl

/-- C6 witness: the single-token list `["-x"]` panics with fuel 2. -/
theorem gcc_c6_witness :
    parseLoop (fun _ => none) "" 2 ["-x"] initSt = some .panicked :=
  gcc_c6 (fun _ => none) "" initSt 2 (by decide)

/-- C2 counterexample: a token sequence without `-c` on which the
classifier returns `CannotCache("-fsyntax-only")`, not `NotCompilation`
as the claim requires of every `-c`-less sequence (the forbidden-flag
early returns fire before the compilation check). -/
theorem gcc_c2_cx :
    parses (fun _ => none) "" ["-fsyntax-only"] (.cannotCache "-fsyntax-only") ∧
    ¬ parses (fun _ => none) "" ["-fsyntax-only"] .notCompilation := by
  constructor
  · exact ⟨3, by decide⟩
  · intro h
    have := parses_unique (fun _ => none) "" ["-fsyntax-only"] .notCompilation
      (.cannotCache "-fsyntax-only") h ⟨3, by decide⟩
    simp at this

/-- C2 (amended): for every token sequence that does not contain `-c` and
in which no token begins with `@`, `parse_arguments` never returns `Ok`:
the result is `NotCompilation`, some `CannotCache`, or the `-x` panic. -/
theorem gcc_c2 (fs : FSModel) (cwd : String) (args : List String) (r : GccResult)
    (hfree : ∀ t ∈ args, strStartsWith t "@" = false)
    (hc : "-c" ∉ args) (h : parses fs cwd args r) :
    r = .notCompilation ∨ (∃ m, r = .cannotCache m) ∨ r = .panicked := by
  have hpure : parses fs cwd args (scanOutToRes (scanAux args initSt)) :=
    ⟨args.length + 1, parseLoop_eq_scanAux fs cwd (args.length + 1) args initSt
      (args.length + 1) (by omega) hfree (by omega)⟩
  have hr : r = scanOutToRes (scanAux args initSt) :=
    parses_unique fs cwd args _ _ h hpure
  have hnotok := scanAux_no_c (args.length + 1) args initSt (by omega) hc rfl
  rw [hr]
  cases hres : scanOutToRes (scanAux args initSt) with
  | ok pa => exact absurd hres (hnotok pa)
  | cannotCache m => exact Or.inr (Or.inl ⟨m, rfl⟩)
  | notCompilation => exact Or.inl rfl
  | panicked => exact Or.inr (Or.inr rfl)

/-- C2 witness: `["-o", "foo"]` lacks `-c` and classifies as
`NotCompilation`. -/
theorem gcc_c2_witness :
    GccResult.notCompilation = .notCompilation ∨
    (∃ m, GccResult.notCompilation = .cannotCache m) ∨
    GccResult.notCompilation = .panicked :=
  gcc_c2 (fun _ => none) "" ["-o", "foo"] .notCompilation (by decide) (by decide)
    ⟨4, by decide⟩

theorem awv_facts (t : String) (h : argument_takes_value t = true) :
    isFlag t = true ∧ t ≠ "-c" ∧ t ≠ "-o" ∧ t ≠ "-gsplit-dwarf" ∧ t ≠ "-x" ∧
    t ≠ "-MF" ∧ t ≠ "-MQ" ∧ t ≠ "-MT" ∧ forbiddenTok t = false ∧
    isMFlag t = false ∧ strStartsWith t "@" = false := by
  simp only [argument_takes_value, ARGS_WITH_VALUE, decide_eq_true_eq,
    List.mem_cons, List.mem_singleton, List.not_mem_nil, or_false] at h
  rcases h with rfl | rfl | rfl | rfl | rfl | rfl | rfl | rfl | rfl | rfl | rfl |
    rfl | rfl | rfl | rfl | rfl | rfl | rfl | rfl | rfl | rfl | rfl | rfl | rfl |
    rfl | rfl | rfl <;> exact (by decide)

theorem mflag_not_consumer (t : String) (h : isMFlag t = true) :
    isConsumer t = false := by
  simp only [isMFlag, decide_eq_true_eq] at h
  rcases h with rfl | rfl | rfl | rfl <;> decide

theorem applyVal_inl_need (st st' : ParseState) (s : String) (k : ConsumeKind)
    (v : Option String) (h : applyVal st s k v = .inl st') :
    st'.need_explicit_dep_target = st.need_explicit_dep_target := by
  cases k <;> cases v <;> simp only [applyVal] at h <;> cases h <;> rfl

theorem applyVal_mt (st : ParseState) (s : String) (v : Option String) :
    applyVal st s .ck_mt v = .inl { st with dep_target := v } := rfl

theorem applyVal_inl_dep (st st' : ParseState) (s : String) (k : ConsumeKind)
    (v : Option String) (h : applyVal st s k v = .inl st') (hk : k ≠ .ck_mt) :
    st'.dep_target = st.dep_target := by
  cases k <;> cases v <;> simp only [applyVal] at h <;> try cases h
  all_goals first | rfl | exact absurd rfl hk

theorem dispatch_setSt_facts (st st1 : ParseState) (s : String)
    (h : dispatch st s = .setSt st1) :
    st1.need_explicit_dep_target = (st.need_explicit_dep_target || isMFlag s) ∧
    st1.dep_target = st.dep_target ∧ isConsumer s = false ∧ s ≠ "-MT" := by
  rcases dispatch_spec st s with ⟨hs, hd⟩ | ⟨hs, hd⟩ | ⟨hs, hd⟩ | ⟨hs, hd⟩ |
    ⟨hs, hd⟩ | ⟨hs, hd⟩ | ⟨hs, hd⟩ | ⟨hs, hd | hd | hd⟩ | ⟨hs, hd⟩ | ⟨hs, hd⟩ |
    ⟨hf, hc1, hcons, hforb, hmfl, hg, hd⟩ | ⟨hs, hf, hat12, hd⟩ |
    ⟨hf, hat, hdash, hin, hcons, hc1, hforb, hmfl, hd⟩ <;> rw [hd] at h <;>
    try cases h
  · subst hs; exact ⟨by simp [isMFlag], rfl, by decide, by decide⟩
  · subst hs; exact ⟨by simp [isMFlag], rfl, by decide, by decide⟩
  · refine ⟨by simp [hs], rfl, mflag_not_consumer s hs, ?_⟩
    intro hts
    rw [hts] at hs
    exact absurd hs (by decide)
  · refine ⟨by simp [hmfl], rfl, hcons, ?_⟩
    intro hts
    rw [hts] at hcons
    exact absurd hcons (by decide)
  · refine ⟨by simp [hmfl], rfl, hcons, ?_⟩
    intro hts
    rw [hts] at hcons
    exact absurd hcons (by decide)

theorem dispatch_consume_facts (st : ParseState) (s : String) (k : ConsumeKind)
    (h : dispatch st s = .consume k) :
    isConsumer s = true ∧ ((k = .ck_mt) ↔ (s = "-MT")) ∧ isMFlag s = false := by
  rcases dispatch_spec st s with ⟨hs, hd⟩ | ⟨hs, hd⟩ | ⟨hs, hd⟩ | ⟨hs, hd⟩ |
    ⟨hs, hd⟩ | ⟨hs, hd⟩ | ⟨hs, hd⟩ | ⟨hs, hd | hd | hd⟩ | ⟨hs, hd⟩ | ⟨hs, hd⟩ |
    ⟨hf, hc1, hcons, hforb, hmfl, hg, hd⟩ | ⟨hs, hf, hat12, hd⟩ |
    ⟨hf, hat, hdash, hin, hcons, hc1, hforb, hmfl, hd⟩ <;> rw [hd] at h <;>
    try cases h
  · subst hs; decide
  · obtain ⟨-, -, -, -, -, -, -, hmt, -, hmfl, -⟩ := awv_facts s hs
    exact ⟨by simp [isConsumer, hs], ⟨fun habs => absurd habs (by decide),
      fun hts => absurd hts hmt⟩, hmfl⟩
  · subst hs; decide
  · rcases hs with rfl | rfl <;> decide
  · subst hs; decide

theorem popScan_cons_nc (t : String) (rest : List String)
    (h : isConsumer t = false) : popScan (t :: rest) = t :: popScan rest := by
  rw [popScan.eq_def]
  dsimp only
  rw [if_neg (by simp [h])]

theorem popScan_cons_c_nil (t : String) (h : isConsumer t = true) :
    popScan [t] = [t] := by
  rw [popScan.eq_def]
  dsimp only
  rw [if_pos h]

theorem popScan_cons_c (t v : String) (rest2 : List String)
    (h : isConsumer t = true) : popScan (t :: v :: rest2) = t :: popScan rest2 := by
  rw [popScan.eq_def]
  dsimp only
  rw [if_pos h]

theorem lastMTv_cons_nc (t : String) (rest : List String) (acc : Option String)
    (h1 : t ≠ "-MT") (h2 : isConsumer t = false) :
    lastMTv (t :: rest) acc = lastMTv rest acc := by
  rw [lastMTv.eq_def]
  dsimp only
  rw [if_neg h1, if_neg (by simp [h2])]

theorem lastMTv_mt_nil (acc : Option String) : lastMTv ["-MT"] acc = none := by
  rw [lastMTv.eq_def]
  dsimp only
  rw [if_pos rfl]

theorem lastMTv_mt_cons (v : String) (rest2 : List String) (acc : Option String) :
    lastMTv ("-MT" :: v :: rest2) acc = lastMTv rest2 (some v) := by
  rw [lastMTv.eq_def]
  dsimp only
  rw [if_pos rfl]

theorem lastMTv_cons_c_nil (t : String) (acc : Option String)
    (h1 : t ≠ "-MT") (h2 : isConsumer t = true) : lastMTv [t] acc = acc := by
  rw [lastMTv.eq_def]
  dsimp only
  rw [if_neg h1, if_pos h2]

theorem lastMTv_cons_c (t v : String) (rest2 : List String) (acc : Option String)
    (h1 : t ≠ "-MT") (h2 : isConsumer t = true) :
    lastMTv (t :: v :: rest2) acc = lastMTv rest2 acc := by
  rw [lastMTv.eq_def]
  dsimp only
  rw [if_neg h1, if_pos h2]

theorem scanAux_need_dep : ∀ (N : Nat) (args : List String) (st st' : ParseState),
    args.length < N → scanAux args st = .done st' →
    st'.need_explicit_dep_target =
      (st.need_explicit_dep_target || (popScan args).any (fun x => isMFlag x)) ∧
    st'.dep_target = lastMTv args st.dep_target := by
  intro N
  induction N with
  | zero => intro args st st' h; omega
  | succ N ih =>
    intro args st st' hlen hdone
    cases args with
    | nil =>
      rw [scanAux] at hdone
      cases hdone
      simp [popScan, lastMTv]
    | cons t rest =>
      have hlen' : rest.length < N := by simp at hlen; omega
      rw [scanAux] at hdone
      rcases hd : dispatch st t with r | st1 | k
      · rw [hd] at hdone; cases hdone
      · rw [hd] at hdone
        obtain ⟨hneed, hdep, hcons, hmt⟩ := dispatch_setSt_facts st st1 t hd
        obtain ⟨ih1, ih2⟩ := ih rest st1 st' hlen' hdone
        rw [popScan_cons_nc t rest hcons, lastMTv_cons_nc t rest _ hmt hcons]
        constructor
        · rw [ih1, hneed, List.any_cons, Bool.or_assoc]
        · rw [ih2, hdep]
      · rw [hd] at hdone
        obtain ⟨hcons, hmtiff, hmfl⟩ := dispatch_consume_facts st t k hd
        cases rest with
        | nil =>
          dsimp only at hdone
          by_cases hkm : k = .ck_mt
          · subst hkm
            have hts : t = "-MT" := hmtiff.mp rfl
            subst hts
            rw [applyVal_mt] at hdone
            dsimp only at hdone
            rw [scanAux] at hdone
            cases hdone
            refine ⟨?_, ?_⟩
            · rw [popScan_cons_c_nil _ hcons, List.any_cons]
              simp [isMFlag]
            · rw [lastMTv_mt_nil]
          · rcases hav : applyVal st t k none with st1 | r
            · rw [hav] at hdone
              dsimp only at hdone
              rw [scanAux] at hdone
              obtain rfl := ScanOut.done.inj hdone
              have hnd := applyVal_inl_need st st1 t k none hav
              have hdp := applyVal_inl_dep st st1 t k none hav hkm
              have htm : t ≠ "-MT" := fun hts => hkm (hmtiff.mpr hts)
              refine ⟨?_, ?_⟩
              · rw [hnd, popScan_cons_c_nil _ hcons, List.any_cons, hmfl]
                simp
              · rw [hdp, lastMTv_cons_c_nil _ _ htm hcons]
            · rw [hav] at hdone
              dsimp only at hdone
              cases hdone
        | cons v rest2 =>
          dsimp only at hdone
          by_cases hkm : k = .ck_mt
          · subst hkm
            have hts : t = "-MT" := hmtiff.mp rfl
            subst hts
            rw [applyVal_mt] at hdone
            dsimp only at hdone
            obtain ⟨ih1, ih2⟩ := ih rest2 _ st' (by simp at hlen'; omega) hdone
            refine ⟨?_, ?_⟩
            · rw [ih1, popScan_cons_c _ _ _ hcons, List.any_cons,
                show isMFlag "-MT" = false from by decide]
              simp
            · rw [ih2, lastMTv_mt_cons]
          · rcases hav : applyVal st t k (some v) with st1 | r
            · rw [hav] at hdone
              dsimp only at hdone
              obtain ⟨ih1, ih2⟩ := ih rest2 st1 st' (by simp at hlen'; omega) hdone
              have hnd := applyVal_inl_need st st1 t k (some v) hav
              have hdp := applyVal_inl_dep st st1 t k (some v) hav hkm
              have htm : t ≠ "-MT" := fun hts => hkm (hmtiff.mpr hts)
              refine ⟨?_, ?_⟩
              · rw [ih1, hnd, popScan_cons_c _ _ _ hcons, List.any_cons, hmfl]
                simp
              · rw [ih2, hdp, lastMTv_cons_c _ _ _ _ htm hcons]
            · rw [hav] at hdone
              dsimp only at hdone
              cases hdone

theorem startsWith_dash_not_at (t : String) (h : strStartsWith t "-" = true) :
    strStartsWith t "@" = false := by
  unfold strStartsWith at h ⊢
  have e1 : ("-" : String).data = ['-'] := by decide
  have e2 : ("@" : String).data = ['@'] := by decide
  rw [e1] at h
  rw [e2]
  cases ht : t.data with
  | nil => rw [ht] at h; simp [List.isPrefixOf] at h
  | cons a l =>
    rw [ht] at h
    simp [List.isPrefixOf] at h ⊢
    rw [← h]
    decide

theorem forb_isFlag (t : String) (h : forbiddenTok t = true) : isFlag t = true := by
  simp only [forbiddenTok, decide_eq_true_eq, List.mem_cons, List.mem_singleton,
    List.not_mem_nil, or_false] at h
  rcases h with rfl | rfl | rfl | rfl <;> decide

theorem mflag_isFlag (t : String) (h : isMFlag t = true) : isFlag t = true := by
  simp only [isMFlag, decide_eq_true_eq] at h
  rcases h with rfl | rfl | rfl | rfl <;> decide

theorem dispatch_c_eval (st : ParseState) :
    dispatch st "-c" = .setSt { st with compilation := true } := rfl

theorem dispatch_o_eval (st : ParseState) :
    dispatch st "-o" = .consume .ck_o := by
  unfold dispatch
  rw [if_neg (by decide), if_pos rfl]

theorem dispatch_mf_eval (st : ParseState) :
    dispatch st "-MF" = .consume .ck_mfq := by
  unfold dispatch
  rw [if_neg (by decide), if_neg (by decide), if_neg (by decide),
    if_neg (by decide), if_neg (by decide), if_pos (Or.inl rfl)]

theorem dispatch_mq_eval (st : ParseState) :
    dispatch st "-MQ" = .consume .ck_mfq := by
  unfold dispatch
  rw [if_neg (by decide), if_neg (by decide), if_neg (by decide),
    if_neg (by decide), if_neg (by decide), if_pos (Or.inr rfl)]

theorem dispatch_mt_eval (st : ParseState) :
    dispatch st "-MT" = .consume .ck_mt := by
  unfold dispatch
  rw [if_neg (by decide), if_neg (by decide), if_neg (by decide),
    if_neg (by decide), if_neg (by decide), if_neg (by decide), if_pos rfl]

theorem dispatch_awv_eval (st : ParseState) (t : String)
    (h : argument_takes_value t = true) : dispatch st t = .consume .ck_val := by
  obtain ⟨-, h1, h2, h3, -, -, -, -, -, -, -⟩ := awv_facts t h
  unfold dispatch
  rw [if_neg h1, if_neg h2, if_neg h3, if_pos h]

theorem dispatch_flag (st : ParseState) (t : String) (hf : isFlag t = true)
    (hcons : isConsumer t = false) (hforb : forbiddenTok t = false)
    (hc1 : t ≠ "-c") :
    ∃ st1, dispatch st t = .setSt st1 ∧ st1.compilation = st.compilation ∧
      st1.output_arg = st.output_arg ∧ st1.input_arg = st.input_arg := by
  rcases dispatch_spec st t with ⟨hs, hd⟩ | ⟨hs, hd⟩ | ⟨hs, hd⟩ | ⟨hs, hd⟩ |
    ⟨hs, hd⟩ | ⟨hs, hd⟩ | ⟨hs, hd⟩ | ⟨hs, hd | hd | hd⟩ | ⟨hs, hd⟩ | ⟨hs, hd⟩ |
    ⟨hf2, hc2, hcons2, hforb2, hmfl2, hg2, hd⟩ | ⟨hs, hf2, hat12, hd⟩ |
    ⟨hf2, hat2, hdash2, hin2, hcons2, hc2, hforb2, hmfl2, hd⟩
  · exact absurd hs hc1
  · rw [hs] at hcons; exact absurd hcons (by decide)
  · exact ⟨_, hd, rfl, rfl, rfl⟩
  · rw [show isConsumer t = true from by simp [isConsumer, hs]] at hcons
    exact absurd hcons (by decide)
  · rw [hs] at hcons; exact absurd hcons (by decide)
  · rcases hs with rfl | rfl <;> exact absurd hcons (by decide)
  · rw [hs] at hcons; exact absurd hcons (by decide)
  · rw [hs] at hforb; exact absurd hforb (by decide)
  · rw [hs] at hforb; exact absurd hforb (by decide)
  · rw [hs] at hforb; exact absurd hforb (by decide)
  · rw [startsWith_dash_not_at t (by simpa [isFlag] using (And.left (by simpa [isFlag] using hf)))] at hs
    exact absurd hs (by decide)
  · exact ⟨_, hd, rfl, rfl, rfl⟩
  · exact ⟨_, hd, rfl, rfl, rfl⟩
  · rw [hf2] at hf; exact absurd hf (by decide)
  · rw [hf2] at hf; exact absurd hf (by decide)

theorem dispatch_input (st : ParseState) (t : String) (hnf : isFlag t = false)
    (hat : strStartsWith t "@" = false) (hdash : t ≠ "-")
    (hin : st.input_arg = none) :
    dispatch st t = .setSt { st with input_arg := some t } := by
  rcases dispatch_spec st t with ⟨hs, hd⟩ | ⟨hs, hd⟩ | ⟨hs, hd⟩ | ⟨hs, hd⟩ |
    ⟨hs, hd⟩ | ⟨hs, hd⟩ | ⟨hs, hd⟩ | ⟨hs, hd | hd | hd⟩ | ⟨hs, hd⟩ | ⟨hs, hd⟩ |
    ⟨hf2, hc2, hcons2, hforb2, hmfl2, hg2, hd⟩ | ⟨hs, hf2, hat12, hd⟩ |
    ⟨hf2, hat2, hdash2, hin2, hcons2, hc2, hforb2, hmfl2, hd⟩
  · rw [hs] at hnf; exact absurd hnf (by decide)
  · rw [hs] at hnf; exact absurd hnf (by decide)
  · rw [hs] at hnf; exact absurd hnf (by decide)
  · obtain ⟨hfl, -⟩ := awv_facts t hs
    rw [hfl] at hnf; exact absurd hnf (by simp)
  · rw [hs] at hnf; exact absurd hnf (by decide)
  · rcases hs with rfl | rfl <;> exact absurd hnf (by decide)
  · rw [hs] at hnf; exact absurd hnf (by decide)
  · rw [forb_isFlag t hs] at hnf; exact absurd hnf (by simp)
  · rw [forb_isFlag t hs] at hnf; exact absurd hnf (by simp)
  · rw [forb_isFlag t hs] at hnf; exact absurd hnf (by simp)
  · rw [hs] at hat; exact absurd hat (by simp)
  · rw [mflag_isFlag t hs] at hnf; exact absurd hnf (by simp)
  · rw [hf2] at hnf; exact absurd hnf (by simp)
  · rcases hs with hsome | rfl
    · rw [hin] at hsome; exact absurd hsome (by simp)
    · exact absurd rfl hdash
  · exact hd

theorem extResOf_good (fit : Option String) (iv : String)
    (hg : extGood iv = true) : ∃ ext, extResOf fit iv = some ext := by
  cases fit with
  | some ty => exact ⟨ty, rfl⟩
  | none =>
    unfold extGood at hg
    cases hfe : fileExtOf iv with
    | none => rw [hfe] at hg; simp at hg
    | some e =>
      rw [hfe] at hg
      dsimp only at hg
      refine ⟨e, ?_⟩
      unfold extResOf
      rw [hfe]
      dsimp only
      rw [if_pos (by simpa using hg)]

theorem finalize_eval (st : ParseState) (iv pv ext : String)
    (hc : st.compilation = true) (hi : st.input_arg = some iv)
    (ho : st.output_arg = some pv)
    (he : extResOf st.force_input_type iv = some ext) :
    finalize st = .ok ⟨iv, ext, none,
      (if st.split_dwarf then [("dwo", withExtDwo pv)] else []) ++ [("obj", pv)],
      (if st.need_explicit_dep_target then
         st.preprocessor_args ++ ["-MT", st.dep_target.getD pv]
       else st.preprocessor_args),
      st.common_args, false⟩ := by
  unfold finalize
  rw [if_neg (by simp [hc]), hi]
  dsimp only
  rw [he]
  dsimp only
  rw [ho]

theorem c1scan_sound : ∀ (N : Nat) (args : List String) (st : ParseState)
    (c : Bool) (o i : Option String) (p inp : String),
    args.length < N →
    st.compilation = c → st.output_arg = o → st.input_arg = i →
    (∀ x, i = some x → extGood x = true) →
    c1scan args c o i = some (p, inp) →
    ∃ pa, scanOutToRes (scanAux args st) = .ok pa ∧
      lookupOut pa.outputs "obj" = some p ∧ pa.input = inp := by
  intro N
  induction N with
  | zero => intro args st c o i p inp h; omega
  | succ N ih =>
    intro args st c o i p inp hlen hc ho hi hext h
    cases args with
    | nil =>
      cases c with
      | false => cases o <;> cases i <;> simp [c1scan] at h
      | true =>
      cases o with
      | none => cases i <;> simp [c1scan] at h
      | some pv =>
      cases i with
      | none => simp [c1scan] at h
      | some iv =>
      rw [c1scan.eq_def] at h
      dsimp only at h
      simp only [Option.some.injEq, Prod.mk.injEq] at h
      obtain ⟨rfl, rfl⟩ := h
      obtain ⟨ext, he⟩ := extResOf_good st.force_input_type iv (hext iv rfl)
      refine ⟨⟨iv, ext, none,
        (if st.split_dwarf then [("dwo", withExtDwo pv)] else []) ++ [("obj", pv)],
        (if st.need_explicit_dep_target then
           st.preprocessor_args ++ ["-MT", st.dep_target.getD pv]
         else st.preprocessor_args),
        st.common_args, false⟩, ?_,
        lookupOut_obj st.split_dwarf (withExtDwo pv) pv, rfl⟩
      rw [scanAux]
      show finalize st = _
      exact finalize_eval st iv pv ext hc hi ho he
    | cons t rest =>
      have hlen' : rest.length < N := by simp at hlen; omega
      by_cases ht1 : t = "-c"
      · subst ht1
        rw [c1scan.eq_def] at h
        dsimp only at h
        rw [if_pos rfl] at h
        rw [scanAux, dispatch_c_eval st]
        dsimp only
        exact ih rest _ true o i p inp hlen' rfl ho hi hext h
      by_cases ht2 : t = "-o"
      · subst ht2
        rw [c1scan.eq_def] at h
        dsimp only at h
        rw [if_neg (by decide), if_pos rfl] at h
        cases o with
        | some pv => cases rest <;> simp at h
        | none =>
          cases rest with
          | nil => simp at h
          | cons p0 rest2 =>
            dsimp only at h
            rw [scanAux, dispatch_o_eval st]
            dsimp only [applyVal]
            exact ih rest2 _ c (some p0) i p inp (by simp at hlen'; omega)
              hc rfl hi hext h
      by_cases hcons : isConsumer t = true
      · rw [c1scan.eq_def] at h
        dsimp only at h
        rw [if_neg ht1, if_neg ht2, if_pos hcons] at h
        have hcons' := hcons
        simp only [isConsumer, decide_eq_true_eq] at hcons'
        rcases hcons' with rfl | htv | rfl | rfl | rfl | rfl
        · exact absurd rfl ht2
        · obtain ⟨-, -, -, -, hx, -, -, -, -, -, -⟩ := awv_facts t htv
          cases rest with
          | nil =>
            dsimp only at h
            rw [if_neg hx] at h
            rw [scanAux, dispatch_awv_eval st t htv]
            dsimp only [applyVal]
            exact ih [] _ c o i p inp hlen' hc ho hi hext h
          | cons v rest2 =>
            dsimp only at h
            by_cases hvc : isFlag v ∧ forbiddenTok v = false ∧ v ≠ "-c" ∧ v ≠ "-o"
            · rw [if_pos hvc] at h
              rw [scanAux, dispatch_awv_eval st t htv]
              dsimp only [applyVal]
              exact ih rest2 _ c o i p inp (by simp at hlen'; omega)
                hc ho hi hext h
            · rw [if_neg hvc] at h; exact absurd h (by simp)
        · cases rest with
          | nil =>
            dsimp only at h
            rw [if_pos rfl] at h
            exact absurd h (by simp)
          | cons v rest2 =>
            dsimp only at h
            by_cases hvc : isFlag v ∧ forbiddenTok v = false ∧ v ≠ "-c" ∧ v ≠ "-o"
            · rw [if_pos hvc] at h
              rw [scanAux, dispatch_x_eval st]
              dsimp only [applyVal]
              exact ih rest2 _ c o i p inp (by simp at hlen'; omega)
                hc ho hi hext h
            · rw [if_neg hvc] at h; exact absurd h (by simp)
        · cases rest with
          | nil =>
            dsimp only at h
            rw [if_neg (by decide)] at h
            rw [scanAux, dispatch_mf_eval st]
            dsimp only [applyVal]
            exact ih [] _ c o i p inp hlen' hc ho hi hext h
          | cons v rest2 =>
            dsimp only at h
            by_cases hvc : isFlag v ∧ forbiddenTok v = false ∧ v ≠ "-c" ∧ v ≠ "-o"
            · rw [if_pos hvc] at h
              rw [scanAux, dispatch_mf_eval st]
              dsimp only [applyVal]
              exact ih rest2 _ c o i p inp (by simp at hlen'; omega)
                hc ho hi hext h
            · rw [if_neg hvc] at h; exact absurd h (by simp)
        · cases rest with
          | nil =>
            dsimp only at h
            rw [if_neg (by decide)] at h
            rw [scanAux, dispatch_mq_eval st]
            dsimp only [applyVal]
            exact ih [] _ c o i p inp hlen' hc ho hi hext h
          | cons v rest2 =>
            dsimp only at h
            by_cases hvc : isFlag v ∧ forbiddenTok v = false ∧ v ≠ "-c" ∧ v ≠ "-o"
            · rw [if_pos hvc] at h
              rw [scanAux, dispatch_mq_eval st]
              dsimp only [applyVal]
              exact ih rest2 _ c o i p inp (by simp at hlen'; omega)
                hc ho hi hext h
            · rw [if_neg hvc] at h; exact absurd h (by simp)
        · cases rest with
          | nil =>
            dsimp only at h
            rw [if_neg (by decide)] at h
            rw [scanAux, dispatch_mt_eval st]
            dsimp only [applyVal]
            exact ih [] _ c o i p inp hlen' hc ho hi hext h
          | cons v rest2 =>
            dsimp only at h
            by_cases hvc : isFlag v ∧ forbiddenTok v = false ∧ v ≠ "-c" ∧ v ≠ "-o"
            · rw [if_pos hvc] at h
              rw [scanAux, dispatch_mt_eval st]
              dsimp only [applyVal]
              exact ih rest2 _ c o i p inp (by simp at hlen'; omega)
                hc ho hi hext h
            · rw [if_neg hvc] at h; exact absurd h (by simp)
      by_cases hfl : isFlag t = true
      · rw [c1scan.eq_def] at h
        dsimp only at h
        rw [if_neg ht1, if_neg ht2, if_neg hcons, if_pos hfl] at h
        by_cases hforb : forbiddenTok t = true
        · rw [if_pos hforb] at h; exact absurd h (by simp)
        · rw [if_neg hforb] at h
          obtain ⟨st1, hd, hcomp1, hout1, hin1⟩ := dispatch_flag st t hfl
            (by simpa using hcons) (by simpa using hforb) ht1
          rw [scanAux, hd]
          dsimp only
          exact ih rest st1 c o i p inp hlen' (hcomp1.trans hc) (hout1.trans ho)
            (hin1.trans hi) hext h
      · rw [c1scan.eq_def] at h
        dsimp only at h
        rw [if_neg ht1, if_neg ht2, if_neg hcons, if_neg hfl] at h
        by_cases hic : extGood t = true ∧ strStartsWith t "@" = false ∧ i = none
        · rw [if_pos hic] at h
          obtain ⟨hg, hat, hinone⟩ := hic
          have hdash : t ≠ "-" := by
            intro heq
            rw [heq] at hg
            exact absurd hg (by decide)
          have hd := dispatch_input st t (by simpa using hfl) hat hdash
            (hi.trans hinone)
          rw [scanAux, hd]
          dsimp only
          refine ih rest _ c o (some t) p inp hlen' hc ho rfl ?_ h
          intro x hx
          obtain rfl := Option.some.inj hx
          exact hg
        · rw [if_neg hic] at h; exact absurd h (by simp)

/-- C1 counterexample: the list contains `-c`, exactly one `-o` followed
by `x.o`, exactly one non-flag token `@a.c` whose extension is `c`, and
no other tokens — yet the classifier returns `CannotCache("@file")`,
not `Ok`, because the unexpandable `@`-prefixed input hits the
response-file guard. -/
theorem gcc_c1_cx :
    parses (fun _ => none) "" ["-c", "@a.c", "-o", "x.o"] (.cannotCache "@file") ∧
    ¬ ∃ pa, parses (fun _ => none) "" ["-c", "@a.c", "-o", "x.o"] (.ok pa) := by
  constructor
  · exact ⟨6, by decide⟩
  · rintro ⟨pa, hp⟩
    have := parses_unique (fun _ => none) "" ["-c", "@a.c", "-o", "x.o"]
      (.ok pa) (.cannotCache "@file") hp ⟨6, by decide⟩
    simp at this

/-- C1 (amended): for every token sequence in which no token begins with
`@`, that contains `-c`, exactly one `-o` followed by a path p, exactly
one standalone non-flag input token with a recognized extension, whose
other popped tokens are plain non-forbidden flags, whose value-taking
flags consume only following flag tokens other than `-c`/`-o` (so no
consumption swallows `-c`, `-o` or the input), and where `-x` never
stands last: `parse_arguments` returns `Ok` with `outputs["obj"] = p`
and `input` equal to the input token. The shape is captured by `c1scan`. -/
theorem gcc_c1 (fs : FSModel) (cwd : String) (args : List String) (p inp : String)
    (hfree : ∀ t ∈ args, strStartsWith t "@" = false)
    (h : c1scan args false none none = some (p, inp)) :
    ∃ pa, parses fs cwd args (.ok pa) ∧
      lookupOut pa.outputs "obj" = some p ∧ pa.input = inp := by
  obtain ⟨pa, hok, hobj, hin⟩ := c1scan_sound (args.length + 1) args initSt false
    none none p inp (by omega) rfl rfl rfl (by intro x hx; cases hx) h
  refine ⟨pa, ⟨args.length + 1, ?_⟩, hobj, hin⟩
  rw [parseLoop_eq_scanAux fs cwd (args.length + 1) args initSt (args.length + 1)
    (by omega) hfree (by omega), hok]

/-- C1 witness: the canonical `-c foo.c -o foo.o` invocation is accepted
with the claimed output and input. -/
theorem gcc_c1_witness :
    ∃ pa, parses (fun _ => none) "" ["-c", "foo.c", "-o", "foo.o"] (.ok pa) ∧
      lookupOut pa.outputs "obj" = some "foo.o" ∧ pa.input = "foo.c" :=
  gcc_c1 (fun _ => none) "" ["-c", "foo.c", "-o", "foo.o"] "foo.o" "foo.c"
    (by decide) (by decide)

/-- C5 counterexample: the sequence contains `-MD`, but `-MD` is consumed
as the value of the preceding `-I`, so the classifier accepts the
invocation with an empty `preprocessor_args` — no `-MT` is appended even
though a dep-generation flag token appears in the sequence. -/
theorem gcc_c5_cx :
    parses (fun _ => none) "" ["-c", "a.c", "-o", "x.o", "-I", "-MD"]
      (.ok ⟨"a.c", "c", none, [("obj", "x.o")], [], ["-I", "-MD"], false⟩) ∧
    (ParsedArguments.mk "a.c" "c" none [("obj", "x.o")] [] ["-I", "-MD"]
      false).preprocessor_args = [] := by
  exact ⟨⟨8, by decide⟩, rfl⟩

/-- C5 (amended): for every accepted invocation, if one of
`-M`/`-MM`/`-MD`/`-MMD` was popped standalone by the scanner (not
consumed as a value-taking flag's value), the returned
`preprocessor_args` are the scanned ones with `-MT` and a target
appended, the target being the last standalone `-MT`'s value when one
was scanned and otherwise the `-o` output path; if no such flag was
popped standalone, the classifier appends nothing. -/
theorem gcc_c5 (args : List String) (st : ParseState) (pa : ParsedArguments)
    (p : String) (hdone : scanAux args initSt = .done st)
    (hfin : finalize st = .ok pa)
    (hobj : lookupOut pa.outputs "obj" = some p) :
    ((popScan args).any (fun x => isMFlag x) = true →
      pa.preprocessor_args =
        st.preprocessor_args ++ ["-MT", (lastMTv args none).getD p]) ∧
    ((popScan args).any (fun x => isMFlag x) = false →
      pa.preprocessor_args = st.preprocessor_args) := by
  obtain ⟨hneed, hdep⟩ :=
    scanAux_need_dep (args.length + 1) args initSt st (by omega) hdone
  obtain ⟨i, ext, o, hi, ho, hc, he, hpa⟩ := finalize_ok st pa hfin
  have hpo : p = o := by
    rw [hpa] at hobj
    rw [lookupOut_obj st.split_dwarf (withExtDwo o) o] at hobj
    exact (Option.some.inj hobj).symm
  subst hpo
  have hneed' : st.need_explicit_dep_target = (popScan args).any (fun x => isMFlag x) := by
    rw [hneed]
    rfl
  have hdep' : st.dep_target = lastMTv args none := by
    rw [hdep]
    rfl
  constructor
  · intro hM
    rw [hpa]
    dsimp only
    rw [if_pos (by rw [hneed', hM]), hdep']
  · intro hM
    rw [hpa]
    dsimp only
    rw [if_neg (by rw [hneed', hM]; simp)]

/-- C5 witness: `-MD` popped standalone with no explicit `-MT` appends
`-MT foo.o` to the preprocessor arguments. -/
theorem gcc_c5_witness :
    (ParsedArguments.mk "foo.c" "c" none [("obj", "foo.o")]
      ["-MD", "-MT", "foo.o"] [] false).preprocessor_args =
      ["-MD"] ++ ["-MT",
        (lastMTv ["-c", "foo.c", "-o", "foo.o", "-MD"] none).getD "foo.o"] :=
  (gcc_c5 ["-c", "foo.c", "-o", "foo.o", "-MD"]
    ⟨some "foo.o", some "foo.c", none, [], ["-MD"], true, false, true, none⟩
    ⟨"foo.c", "c", none, [("obj", "foo.o")], ["-MD", "-MT", "foo.o"], [], false⟩
    "foo.o" (by decide) (by decide) (by decide)).1 (by decide)

theorem endsWith_slash_or_backslash (s : String) :
    strEndsWith s "/" = false ∨ strEndsWith s "\\" = false := by
  by_cases h1 : strEndsWith s "/" = true
  · by_cases h2 : strEndsWith s "\\" = true
    · exfalso
      unfold strEndsWith at h1 h2
      have e1 : ("/" : String).data.reverse = ['/'] := by decide
      have e2 : ("\\" : String).data.reverse = ['\\'] := by decide
      rw [e1] at h1
      rw [e2] at h2
      cases hrev : s.data.reverse with
      | nil =>
        rw [hrev] at h1
        simp [List.isPrefixOf] at h1
      | cons a t =>
        rw [hrev] at h1 h2
        simp [List.isPrefixOf] at h1 h2
        rw [← h1] at h2
        exact absurd h2 (by decide)
    · exact Or.inr (by simpa using h2)
  · exact Or.inl (by simpa using h1)

/-- C10: for every configured `compiler_dir` string, the trailing-separator
guard `!ends_with("/") || !ends_with("\\")` is true (no string ends with
both separators), so `Config::create` always takes the appending branch
and stores the configured string with `"."` appended; the verbatim branch
is unreachable. -/
theorem config_c10 : ∀ s : String,
    (strEndsWith s "/" = false ∨ strEndsWith s "\\" = false) ∧
    configCompilerDir (some s) = some (s ++ ".") := by
  intro s
  have key := endsWith_slash_or_backslash s
  refine ⟨key, ?_⟩
  rcases key with h | h
  · simp [configCompilerDir, h]
  · simp [configCompilerDir, h]

/-- C7: the mutual-exclusion check of `cmdline::parse` omits `zero_stats`
from the counted array, so the command line with both `--show-stats` and
`--zero-stats` set is accepted as `ShowStats` instead of failing with the
`Too many commands specified` usage error the spec requires. -/
theorem cmdline_c7_eval :
    cmdlineParse false ⟨true, false, false, true, none⟩ .text =
      .ok (.showStats .text) ∧
    cmdlineParse false ⟨true, false, false, true, none⟩ .text ≠
      .error "Too many commands specified" := by
  constructor
  · decide
  · decide

theorem parse_size_concat (ds : List Char) (c : Char) (s : String)
    (h : s.data = ds ++ [c]) :
    parse_size s =
      (if (¬ ds.isEmpty) ∧ ds.all Char.isDigit ∧
          (c = 'K' ∨ c = 'M' ∨ c = 'G' ∨ c = 'T') then
        match usizeFromDigits ds with
        | none => none
        | some n => some (sizeSuffixMult c * n % 2 ^ 64)
      else none) := by
  unfold parse_size
  rw [h]
  dsimp only
  rw [List.getLast?_concat, List.dropLast_concat]

/-- C8 counterexample: a digit string whose value does not fit in the
64-bit machine word is mapped to `None` by `parse_size` (the inner
`usize::from_str` fails), not to `Some` of value times 1024 as the claim
requires for every digit-and-suffix string. -/
theorem parse_size_c8_cx :
    parse_size "18446744073709551616K" = none ∧
    parse_size "18446744073709551616K" ≠ some (18446744073709551616 * 1024) := by
  constructor
  · decide
  · decide

/-- C8 (amended): `parse_size` maps the empty string and every bare digit
string to `None`, and maps every string of digits followed by exactly one
of `K`/`M`/`G`/`T` whose value times the multiplier fits the 64-bit
machine word to `Some` of that product (digit values that overflow the
word are rejected by `usize::from_str`). -/
theorem parse_size_c8 :
    parse_size "" = none ∧
    (∀ s : String, s.data ≠ [] → s.data.all Char.isDigit = true →
      parse_size s = none) ∧
    (∀ (s : String) (ds : List Char) (c : Char),
      s.data = ds ++ [c] → ds ≠ [] → ds.all Char.isDigit = true →
      (c = 'K' ∨ c = 'M' ∨ c = 'G' ∨ c = 'T') →
      sizeSuffixMult c * digitsToNat ds < 2 ^ 64 →
      parse_size s = some (sizeSuffixMult c * digitsToNat ds)) := by
  refine ⟨by decide, ?_, ?_⟩
  · intro s hne hall
    rcases List.eq_nil_or_concat s.data with hnil | ⟨L, b, hLb⟩
    · exact absurd hnil hne
    · rw [List.concat_eq_append] at hLb
      rw [parse_size_concat L b s hLb]
      rw [if_neg]
      rintro ⟨-, -, hk⟩
      have hb : b.isDigit = true := by
        rw [hLb] at hall
        simp [List.all_append] at hall
        exact hall.2
      rcases hk with rfl | rfl | rfl | rfl <;> exact absurd hb (by decide)
  · intro s ds c hdata hne hall hsuf hfit
    have hmpos : 0 < sizeSuffixMult c := by
      rcases hsuf with rfl | rfl | rfl | rfl <;> decide
    have hv : digitsToNat ds < 2 ^ 64 :=
      lt_of_le_of_lt (Nat.le_mul_of_pos_left _ hmpos) hfit
    rw [parse_size_concat ds c s hdata]
    rw [if_pos ⟨by simp [hne], by simp [hall], hsuf⟩]
    unfold usizeFromDigits
    rw [if_pos hv]
    show some (sizeSuffixMult c * digitsToNat ds % 2 ^ 64) = _
    rw [Nat.mod_eq_of_lt hfit]

/-- C8 witness: a bare-digit string maps to `None` and `2K` maps to 2048. -/
theorem parse_size_c8_witness :
    parse_size "100" = none ∧
    parse_size "2K" = some (sizeSuffixMult 'K' * digitsToNat ['2']) :=
  ⟨parse_size_c8.2.1 "100" (by decide) (by decide),
   parse_size_c8.2.2 "2K" ['2'] 'K' (by decide) (by decide) (by decide)
     (Or.inl rfl) (by decide)⟩

theorem foldl_put (l : List CEntry) : ∀ w : List CEntry,
    l.foldl (fun w x => put_object w x.name x.data x.mode) w = w ++ l := by
  induction l with
  | nil => intro w; simp
  | cons e t ih =>
    intro w
    simp only [List.foldl_cons]
    rw [ih]
    simp [put_object]

theorem find_nodup (l : List CEntry) (h : (l.map CEntry.name).Nodup)
    (e : CEntry) (he : e ∈ l) :
    l.find? (fun x => x.name == e.name) = some e := by
  induction l with
  | nil => cases he
  | cons a t ih =>
    rw [List.map_cons, List.nodup_cons] at h
    by_cases hb : (a.name == e.name) = true
    · simp only [List.find?, hb]
      rcases List.mem_cons.mp he with rfl | het
      · rfl
      · exfalso
        have : a.name = e.name := by simpa using hb
        exact h.1 (this ▸ List.mem_map_of_mem CEntry.name het)
    · have hbf : (a.name == e.name) = false := by simpa using hb
      simp only [List.find?, hbf]
      rcases List.mem_cons.mp he with rfl | het
      · exact absurd (by simp) hb
      · exact ih h.2 het

/-- C4: packing any list of entries with pairwise distinct names via
`put_object`/`finish` and reading the resulting blob back via
`CacheRead::from`/`get_object` reproduces each entry's exact bytes and
its exact optional unix mode. -/
theorem cache_c4 : ∀ entries : List CEntry, (entries.map CEntry.name).Nodup →
    ∀ e ∈ entries,
      get_object (cacheReadFrom (cacheFinish
        (entries.foldl (fun w x => put_object w x.name x.data x.mode) cacheWriteNew)))
        e.name = some (e.data, e.mode) := by
  intro entries h e he
  have harch : cacheReadFrom (cacheFinish
      (entries.foldl (fun w x => put_object w x.name x.data x.mode) cacheWriteNew)) =
      entries := by
    unfold cacheReadFrom cacheFinish cacheWriteNew
    rw [foldl_put]
    simp
  rw [harch]
  unfold get_object
  rw [find_nodup entries h e he]
  rfl

/-- C4 witness: a concrete two-entry bundle round-trips. -/
theorem cache_c4_witness :
    get_object (cacheReadFrom (cacheFinish
      (([⟨"obj", [1, 2, 3], some 493⟩, ⟨"dwo", [4], none⟩] : List CEntry).foldl
        (fun w x => put_object w x.name x.data x.mode) cacheWriteNew))) "obj" =
      some ([1, 2, 3], some 493) :=
  cache_c4 [⟨"obj", [1, 2, 3], some 493⟩, ⟨"dwo", [4], none⟩] (by decide)
    ⟨"obj", [1, 2, 3], some 493⟩ (by decide)

theorem nextArg_expand_left (fs : FSModel) (cwd tok : String) (toks B : List String)
    (hexp : expandArg fs cwd tok = some toks) :
    ∀ (n : Nat) (C : List String) (oa : Option String) (rest : List String),
      nextArg fs cwd n (C ++ (tok :: B)) = some (oa, rest) →
      (∃ a C2, oa = some a ∧ rest = C2 ++ (tok :: B) ∧
        ∃ m, nextArg fs cwd m (C ++ (toks ++ B)) = some (some a, C2 ++ (toks ++ B))) ∨
      (∃ m, nextArg fs cwd m (C ++ (toks ++ B)) = some (oa, rest)) := by
  intro n
  induction n with
  | zero => intro C oa rest h; exact absurd h (by simp [nextArg])
  | succ n ih =>
    intro C oa rest h
    cases C with
    | nil =>
      rw [List.nil_append] at h
      rw [nextArg, hexp] at h
      exact Or.inr ⟨n, by rw [List.nil_append]; exact h⟩
    | cons a C2 =>
      rw [List.cons_append] at h
      cases hE : expandArg fs cwd a with
      | none =>
        rw [nextArg, hE] at h
        have h2 := Option.some.inj h
        obtain ⟨rfl, rfl⟩ : oa = some a ∧ rest = C2 ++ (tok :: B) :=
          ⟨(congrArg Prod.fst h2).symm, (congrArg Prod.snd h2).symm⟩
        refine Or.inl ⟨a, C2, rfl, rfl, 1, ?_⟩
        rw [List.cons_append, nextArg, hE]
      | some ta =>
        rw [nextArg, hE] at h
        dsimp only at h
        rw [← List.append_assoc] at h
        rcases ih (ta ++ C2) oa rest h with ⟨a2, C3, hoa, hrest, m, hm⟩ | ⟨m, hm⟩
        · refine Or.inl ⟨a2, C3, hoa, hrest, m + 1, ?_⟩
          rw [List.cons_append, nextArg, hE]
          dsimp only
          rw [← List.append_assoc]
          exact hm
        · refine Or.inr ⟨m + 1, ?_⟩
          rw [List.cons_append, nextArg, hE]
          dsimp only
          rw [← List.append_assoc]
          exact hm

theorem nextArg_expand_right (fs : FSModel) (cwd tok : String) (toks B : List String)
    (hexp : expandArg fs cwd tok = some toks) :
    ∀ (n : Nat) (C : List String) (oa : Option String) (rest : List String),
      nextArg fs cwd n (C ++ (toks ++ B)) = some (oa, rest) →
      (∃ a C2, oa = some a ∧ rest = C2 ++ (toks ++ B) ∧
        ∃ m, nextArg fs cwd m (C ++ (tok :: B)) = some (some a, C2 ++ (tok :: B))) ∨
      (∃ m, nextArg fs cwd m (C ++ (tok :: B)) = some (oa, rest)) := by
  intro n
  induction n with
  | zero => intro C oa rest h; exact absurd h (by simp [nextArg])
  | succ n ih =>
    intro C oa rest h
    cases C with
    | nil =>
      rw [List.nil_append] at h
      refine Or.inr ⟨n + 2, ?_⟩
      rw [List.nil_append, nextArg, hexp]
      exact h
    | cons a C2 =>
      rw [List.cons_append] at h
      cases hE : expandArg fs cwd a with
      | none =>
        rw [nextArg, hE] at h
        have h2 := Option.some.inj h
        obtain ⟨rfl, rfl⟩ : oa = some a ∧ rest = C2 ++ (toks ++ B) :=
          ⟨(congrArg Prod.fst h2).symm, (congrArg Prod.snd h2).symm⟩
        refine Or.inl ⟨a, C2, rfl, rfl, 1, ?_⟩
        rw [List.cons_append, nextArg, hE]
      | some ta =>
        rw [nextArg, hE] at h
        dsimp only at h
        rw [← List.append_assoc] at h
        rcases ih (ta ++ C2) oa rest h with ⟨a2, C3, hoa, hrest, m, hm⟩ | ⟨m, hm⟩
        · refine Or.inl ⟨a2, C3, hoa, hrest, m + 1, ?_⟩
          rw [List.cons_append, nextArg, hE]
          dsimp only
          rw [← List.append_assoc]
          exact hm
        · refine Or.inr ⟨m + 1, ?_⟩
          rw [List.cons_append, nextArg, hE]
          dsimp only
          rw [← List.append_assoc]
          exact hm

theorem stackRel_next_left (fs : FSModel) (cwd tok : String) (toks B : List String)
    (hexp : expandArg fs cwd tok = some toks) (S1 S2 : List String)
    (hR : StackRel tok toks B S1 S2) (n : Nat) (oa : Option String)
    (rest1 : List String) (h : nextArg fs cwd n S1 = some (oa, rest1)) :
    ∃ m rest2, nextArg fs cwd m S2 = some (oa, rest2) ∧
      StackRel tok toks B rest1 rest2 := by
  rcases hR with ⟨C, rfl, rfl⟩ | rfl
  · rcases nextArg_expand_left fs cwd tok toks B hexp n C oa rest1 h with
      ⟨a, C2, rfl, rfl, m, hm⟩ | ⟨m, hm⟩
    · exact ⟨m, C2 ++ (toks ++ B), hm, Or.inl ⟨C2, rfl, rfl⟩⟩
    · exact ⟨m, rest1, hm, Or.inr rfl⟩
  · exact ⟨n, rest1, h, Or.inr rfl⟩

theorem stackRel_next_right (fs : FSModel) (cwd tok : String) (toks B : List String)
    (hexp : expandArg fs cwd tok = some toks) (S1 S2 : List String)
    (hR : StackRel tok toks B S1 S2) (n : Nat) (oa : Option String)
    (rest2 : List String) (h : nextArg fs cwd n S2 = some (oa, rest2)) :
    ∃ m rest1, nextArg fs cwd m S1 = some (oa, rest1) ∧
      StackRel tok toks B rest1 rest2 := by
  rcases hR with ⟨C, rfl, rfl⟩ | rfl
  · rcases nextArg_expand_right fs cwd tok toks B hexp n C oa rest2 h with
      ⟨a, C2, rfl, rfl, m, hm⟩ | ⟨m, hm⟩
    · exact ⟨m, C2 ++ (tok :: B), hm, Or.inl ⟨C2, rfl, rfl⟩⟩
    · exact ⟨m, rest2, hm, Or.inr rfl⟩
  · exact ⟨n, rest2, h, Or.inr rfl⟩

theorem parseLoop_expand_left (fs : FSModel) (cwd tok : String)
    (toks B : List String) (hexp : expandArg fs cwd tok = some toks) :
    ∀ (n : Nat) (S1 S2 : List String) (st : ParseState) (r : GccResult),
      StackRel tok toks B S1 S2 → parseLoop fs cwd n S1 st = some r →
      ∃ m, parseLoop fs cwd m S2 st = some r := by
  intro n
  induction n with
  | zero => intro S1 S2 st r hR h; exact absurd h (by simp [parseLoop])
  | succ n ih =>
    intro S1 S2 st r hR h
    rw [parseLoop] at h
    cases hnx : nextArg fs cwd (n + 1) S1 with
    | none => rw [hnx] at h; exact absurd h (by simp)
    | some pr =>
      obtain ⟨oa, rest1⟩ := pr
      rw [hnx] at h
      obtain ⟨m0, rest2, hm0, hR2⟩ :=
        stackRel_next_left fs cwd tok toks B hexp S1 S2 hR (n + 1) oa rest1 hnx
      cases oa with
      | none =>
        refine ⟨m0 + 1, ?_⟩
        rw [parseLoop, nextArg_mono fs cwd m0 (m0 + 1) S2 (none, rest2) hm0 (by omega)]
        exact h
      | some s =>
        dsimp only at h
        cases hd : dispatch st s with
        | stop r2 =>
          rw [hd] at h
          refine ⟨m0 + 1, ?_⟩
          rw [parseLoop, nextArg_mono fs cwd m0 (m0 + 1) S2 (some s, rest2) hm0 (by omega)]
          dsimp only
          rw [hd]
          exact h
        | setSt st1 =>
          rw [hd] at h
          obtain ⟨m1, hm1⟩ := ih rest1 rest2 st1 r hR2 h
          refine ⟨max m0 m1 + 1, ?_⟩
          rw [parseLoop,
            nextArg_mono fs cwd m0 (max m0 m1 + 1) S2 (some s, rest2) hm0 (by omega)]
          dsimp only
          rw [hd]
          exact parseLoop_mono fs cwd m1 (max m0 m1) rest2 st1 r hm1 (by omega)
        | consume k =>
          rw [hd] at h
          dsimp only at h
          cases hnx2 : nextArg fs cwd n rest1 with
          | none => rw [hnx2] at h; exact absurd h (by simp)
          | some pr2 =>
            obtain ⟨v, rest1b⟩ := pr2
            rw [hnx2] at h
            obtain ⟨m2, rest2b, hm2, hR3⟩ :=
              stackRel_next_left fs cwd tok toks B hexp rest1 rest2 hR2 n v rest1b hnx2
            dsimp only at h
            cases hav : applyVal st s k v with
            | inl st1 =>
              rw [hav] at h
              obtain ⟨m3, hm3⟩ := ih rest1b rest2b st1 r hR3 h
              refine ⟨max m0 (max m2 m3) + 1, ?_⟩
              rw [parseLoop, nextArg_mono fs cwd m0 (max m0 (max m2 m3) + 1) S2
                (some s, rest2) hm0 (by omega)]
              dsimp only
              rw [hd]
              dsimp only
              rw [nextArg_mono fs cwd m2 (max m0 (max m2 m3)) rest2 (v, rest2b) hm2
                (by omega)]
              dsimp only
              rw [hav]
              exact parseLoop_mono fs cwd m3 (max m0 (max m2 m3)) rest2b st1 r hm3
                (by omega)
            | inr r2 =>
              rw [hav] at h
              refine ⟨max m0 m2 + 1, ?_⟩
              rw [parseLoop, nextArg_mono fs cwd m0 (max m0 m2 + 1) S2
                (some s, rest2) hm0 (by omega)]
              dsimp only
              rw [hd]
              dsimp only
              rw [nextArg_mono fs cwd m2 (max m0 m2) rest2 (v, rest2b) hm2 (by omega)]
              dsimp only
              rw [hav]
              exact h

theorem parseLoop_expand_right (fs : FSModel) (cwd tok : String)
    (toks B : List String) (hexp : expandArg fs cwd tok = some toks) :
    ∀ (n : Nat) (S1 S2 : List String) (st : ParseState) (r : GccResult),
      StackRel tok toks B S1 S2 → parseLoop fs cwd n S2 st = some r →
      ∃ m, parseLoop fs cwd m S1 st = some r := by
  intro n
  induction n with
  | zero => intro S1 S2 st r hR h; exact absurd h (by simp [parseLoop])
  | succ n ih =>
    intro S1 S2 st r hR h
    rw [parseLoop] at h
    cases hnx : nextArg fs cwd (n + 1) S2 with
    | none => rw [hnx] at h; exact absurd h (by simp)
    | some pr =>
      obtain ⟨oa, rest2⟩ := pr
      rw [hnx] at h
      obtain ⟨m0, rest1, hm0, hR2⟩ :=
        stackRel_next_right fs cwd tok toks B hexp S1 S2 hR (n + 1) oa rest2 hnx
      cases oa with
      | none =>
        refine ⟨m0 + 1, ?_⟩
        rw [parseLoop, nextArg_mono fs cwd m0 (m0 + 1) S1 (none, rest1) hm0 (by omega)]
        exact h
      | some s =>
        dsimp only at h
        cases hd : dispatch st s with
        | stop r2 =>
          rw [hd] at h
          refine ⟨m0 + 1, ?_⟩
          rw [parseLoop, nextArg_mono fs cwd m0 (m0 + 1) S1 (some s, rest1) hm0 (by omega)]
          dsimp only
          rw [hd]
          exact h
        | setSt st1 =>
          rw [hd] at h
          obtain ⟨m1, hm1⟩ := ih rest1 rest2 st1 r hR2 h
          refine ⟨max m0 m1 + 1, ?_⟩
          rw [parseLoop,
            nextArg_mono fs cwd m0 (max m0 m1 + 1) S1 (some s, rest1) hm0 (by omega)]
          dsimp only
          rw [hd]
          exact parseLoop_mono fs cwd m1 (max m0 m1) rest1 st1 r hm1 (by omega)
        | consume k =>
          rw [hd] at h
          dsimp only at h
          cases hnx2 : nextArg fs cwd n rest2 with
          | none => rw [hnx2] at h; exact absurd h (by simp)
          | some pr2 =>
            obtain ⟨v, rest2b⟩ := pr2
            rw [hnx2] at h
            obtain ⟨m2, rest1b, hm2, hR3⟩ :=
              stackRel_next_right fs cwd tok toks B hexp rest1 rest2 hR2 n v rest2b hnx2
            dsimp only at h
            cases hav : applyVal st s k v with
            | inl st1 =>
              rw [hav] at h
              obtain ⟨m3, hm3⟩ := ih rest1b rest2b st1 r hR3 h
              refine ⟨max m0 (max m2 m3) + 1, ?_⟩
              rw [parseLoop, nextArg_mono fs cwd m0 (max m0 (max m2 m3) + 1) S1
                (some s, rest1) hm0 (by omega)]
              dsimp only
              rw [hd]
              dsimp only
              rw [nextArg_mono fs cwd m2 (max m0 (max m2 m3)) rest1 (v, rest1b) hm2
                (by omega)]
              dsimp only
              rw [hav]
              exact parseLoop_mono fs cwd m3 (max m0 (max m2 m3)) rest1b st1 r hm3
                (by omega)
            | inr r2 =>
              rw [hav] at h
              refine ⟨max m0 m2 + 1, ?_⟩
              rw [parseLoop, nextArg_mono fs cwd m0 (max m0 m2 + 1) S1
                (some s, rest1) hm0 (by omega)]
              dsimp only
              rw [hd]
              dsimp only
              rw [nextArg_mono fs cwd m2 (max m0 m2) rest1 (v, rest1b) hm2 (by omega)]
              dsimp only
              rw [hav]
              exact h

theorem isFlag_dash (t : String) (h : isFlag t = true) :
    strStartsWith t "-" = true := by
  simp only [isFlag, Bool.and_eq_true, decide_eq_true_eq] at h
  exact h.1

theorem dispatch_at_tok (st : ParseState) (tok : String)
    (hat : strStartsWith tok "@" = true) :
    dispatch st tok = .stop (.cannotCache "@file") := by
  have hfc : isFlag tok = true → False := by
    intro hf
    rw [startsWith_dash_not_at tok (isFlag_dash tok hf)] at hat
    exact Bool.noConfusion hat
  rcases dispatch_spec st tok with
    ⟨rfl, hd⟩ | ⟨rfl, hd⟩ | ⟨rfl, hd⟩ | ⟨hawv, hd⟩ | ⟨rfl, hd⟩ | ⟨hmfq, hd⟩ |
    ⟨rfl, hd⟩ | ⟨hforb, hd⟩ | ⟨-, hd⟩ | ⟨hmfl, hd⟩ |
    ⟨hf, -, -, -, -, -, hd⟩ | ⟨-, -, hat2, hd⟩ | ⟨-, hat2, -, -, -, -, -, -, hd⟩
  · exact absurd hat (by decide)
  · exact absurd hat (by decide)
  · exact absurd hat (by decide)
  · exact (hfc (awv_facts tok hawv).1).elim
  · exact absurd hat (by decide)
  · rcases hmfq with rfl | rfl <;> exact absurd hat (by decide)
  · exact absurd hat (by decide)
  · exact (hfc (forb_isFlag tok hforb)).elim
  · exact hd
  · exact (hfc (mflag_isFlag tok hmfl)).elim
  · exact (hfc hf).elim
  · rw [hat2] at hat; exact Bool.noConfusion hat
  · rw [hat2] at hat; exact Bool.noConfusion hat

/-- C3: response-file expansion. For every token `tok`: (a) if expansion
succeeds (the resolved file exists with quote-free contents and `toks`
is its whitespace split), then `_parse_arguments` on any list carrying
`tok` in some position produces exactly the results it produces on the
list with `tok` replaced by `toks` (expansion applying recursively to
tokens the file contributes, via the pending stack); (b) otherwise a
popped literal `@`-token makes the scan return `CannotCache("@file")`. -/
theorem gcc_c3 (fs : FSModel) (cwd tok : String) :
    (∀ (toks xs ys : List String) (r : GccResult),
      expandArg fs cwd tok = some toks →
      (parses fs cwd (xs ++ (tok :: ys)) r ↔ parses fs cwd (xs ++ (toks ++ ys)) r)) ∧
    (∀ (st : ParseState) (rest : List String) (n : Nat) (r : GccResult),
      strStartsWith tok "@" = true → expandArg fs cwd tok = none →
      parseLoop fs cwd n (tok :: rest) st = some r →
      r = .cannotCache "@file") := by
  constructor
  · intro toks xs ys r hexp
    constructor
    · rintro ⟨n, hn⟩
      exact parseLoop_expand_left fs cwd tok toks ys hexp n (xs ++ (tok :: ys))
        (xs ++ (toks ++ ys)) initSt r (Or.inl ⟨xs, rfl, rfl⟩) hn
    · rintro ⟨n, hn⟩
      exact parseLoop_expand_right fs cwd tok toks ys hexp n (xs ++ (tok :: ys))
        (xs ++ (toks ++ ys)) initSt r (Or.inl ⟨xs, rfl, rfl⟩) hn
  · intro st rest n r hat hexpn h
    cases n with
    | zero => exact absurd h (by simp [parseLoop])
    | succ n =>
      rw [parseLoop] at h
      have hnx : nextArg fs cwd (n + 1) (tok :: rest) = some (some tok, rest) := by
        rw [nextArg, hexpn]
      rw [hnx] at h
      dsimp only at h
      rw [dispatch_at_tok st tok hat] at h
      exact (Option.some.inj h).symm

/-- C3 witness: with `/w/rsp` holding `-c foo.c`, the run on
`@rsp -o foo.o` coincides with the run on `-c foo.c -o foo.o`, and a
missing response file makes the popped token yield `CannotCache("@file")`. -/
theorem gcc_c3_witness :
    (parses gccC3fs "/w" ["@rsp", "-o", "foo.o"]
        (GccResult.ok
          { input := "foo.c", extension := "c", depfile := none
            outputs := [("obj", "foo.o")], preprocessor_args := []
            common_args := [], msvc_show_includes := false }) ↔
      parses gccC3fs "/w" ["-c", "foo.c", "-o", "foo.o"]
        (GccResult.ok
          { input := "foo.c", extension := "c", depfile := none
            outputs := [("obj", "foo.o")], preprocessor_args := []
            common_args := [], msvc_show_includes := false })) ∧
    GccResult.cannotCache "@file" = GccResult.cannotCache "@file" :=
  ⟨(gcc_c3 gccC3fs "/w" "@rsp").1 ["-c", "foo.c"] [] ["-o", "foo.o"] _ (by decide),
   (gcc_c3 gccC3fs "/w" "@missing").2 initSt [] 2 (GccResult.cannotCache "@file")
     (by decide) (by decide) (by decide)⟩
